import Mathlib

/-!
Circular doubly-linked list (`src/lab.c`).

A shallow embedding of the five functions of `lab.c` over an explicit memory
state.  Memory is split into three typed heaps (nodes, list headers and the
caller's `list_t *` cells); a dereference of an address that holds no live
object is undefined behaviour and is rendered as `none`.  The `while` loops of
`list_destroy` and `list_indexof` take a fuel argument and return `none` when
it runs out, so every theorem that says a call returns a result exhibits the
result for all sufficiently large fuel.

Data model (LP64): pointers and `size_t` are 64 bits wide, `int` is 32 bits.
The result of each `malloc` call is an argument of the function that makes the
call (`NULL` for a failed allocation).  The two callbacks stored in a list are
valid function pointers: the comparator is a pure function of its two
arguments and the destructor transforms an external world that shares nothing
with list memory.
-/

namespace CircularList

/-- A machine address; the null pointer is address zero. -/
abbrev Ptr := Nat

/-- The null pointer. -/
def NULL : Ptr := 0

/-- Number of values of `size_t` and of a pointer (64 bits). -/
def SIZE_RANGE : Nat := 2 ^ 64

/-- Conversion of a `size_t` value to a 32-bit two-complement `int`, as done by
`return index;` in `list_indexof`: values that do not fit wrap modulo `2 ^ 32`
(the conversion GCC, Clang and MSVC implement). -/
def size_to_int (n : Nat) : Int :=
  if n % 2 ^ 32 < 2 ^ 31 then ((n % 2 ^ 32 : Nat) : Int)
  else ((n % 2 ^ 32 : Nat) : Int) - 2 ^ 32

/-- Modelled from the spec: the node structure declared in `lab.h` (not under
src/): one element reference plus links to the next and previous node. -/
structure node_t where
  data : Ptr
  next : Ptr
  prev : Ptr
deriving DecidableEq

/-- Modelled from the spec: the list structure declared in `lab.h` (not under
src/): the two callbacks, the element count and the sentinel pointer.  The
destructor acts on an external world `W` that is disjoint from list memory (the
callbacks must not re-enter the list); the comparator is a pure function. -/
structure list_t (W : Type) where
  destroy_data : Ptr → W → W
  compare_to : Ptr → Ptr → Int
  size : Nat
  head : Ptr

/-- Memory state: live nodes, live list headers, the caller-owned `list_t *`
cells that `list_destroy` receives by address, and the external world the
destructor acts on. -/
structure State (W : Type) where
  nodes : Ptr → Option node_t
  lists : Ptr → Option (list_t W)
  handles : Ptr → Option Ptr
  world : W

variable {W : Type}

/-- `list_init` (lab.c:20-39).  `list_mem` is the result of the first `malloc`,
`head_mem` the result of the second one (only requested when the first
succeeded). -/
def list_init (st : State W) (destroy_data : Ptr → W → W)
    (compare_to : Ptr → Ptr → Int) (list_mem head_mem : Ptr) : Ptr × State W :=
  if list_mem = NULL then (NULL, st)
  else
    let lists1 := Function.update st.lists list_mem
      (some { destroy_data := destroy_data, compare_to := compare_to, size := 0, head := head_mem })
    if head_mem = NULL then
      (NULL, { st with lists := Function.update lists1 list_mem none })
    else
      (list_mem, { st with
        lists := lists1,
        nodes := Function.update st.nodes head_mem
          (some { data := NULL, next := head_mem, prev := head_mem }) })

/-- The `while (current != (*list)->head)` loop of `list_destroy`
(lab.c:53-58); `list` is the address of the caller's handle. -/
def list_destroy_loop (list : Ptr) : Nat → State W → Ptr → Option (State W)
  | 0, _, _ => none
  | fuel + 1, st, current => do
    let p ← st.handles list
    let l ← st.lists p
    if current = l.head then some st
    else
      let temp := current
      let t ← st.nodes temp
      let st1 : State W := { st with world := l.destroy_data t.data st.world }
      let st2 : State W := { st1 with nodes := Function.update st1.nodes temp none }
      list_destroy_loop list fuel st2 t.next

/-- `list_destroy` (lab.c:49-63); `list` is the address of the caller's
handle (`list_t **`). -/
def list_destroy (fuel : Nat) (st : State W) (list : Ptr) : Option (State W) :=
  if list = NULL then some st
  else do
    let p ← st.handles list
    if p = NULL then some st
    else do
      let l ← st.lists p
      let h ← st.nodes l.head
      let st1 ← list_destroy_loop list fuel st h.next
      let p1 ← st1.handles list
      let l1 ← st1.lists p1
      let _ ← st1.nodes l1.head
      let st2 : State W := { st1 with nodes := Function.update st1.nodes l1.head none }
      let p2 ← st2.handles list
      let _ ← st2.lists p2
      let st3 : State W := { st2 with lists := Function.update st2.lists p2 none }
      some { st3 with handles := Function.update st3.handles list (some NULL) }

/-- `list_add` (lab.c:75-91).  `new_mem` is the result of the `malloc` call. -/
def list_add (st : State W) (list data new_mem : Ptr) : Option (Ptr × State W) :=
  if list = NULL ∨ data = NULL then some (NULL, st)
  else
    let new_node := new_mem
    if new_node = NULL then some (NULL, st)
    else do
      let l ← st.lists list
      let h ← st.nodes l.head
      let nodes1 := Function.update st.nodes new_node
        (some { data := data, next := h.next, prev := l.head })
      let h1 ← nodes1 l.head
      let f ← nodes1 h1.next
      let nodes2 := Function.update nodes1 h1.next (some { f with prev := new_node })
      let h2 ← nodes2 l.head
      let nodes3 := Function.update nodes2 l.head (some { h2 with next := new_node })
      some (list, { st with
        nodes := nodes3,
        lists := Function.update st.lists list (some { l with size := (l.size + 1) % SIZE_RANGE }) })

/-- The `for (i = 0; i < index; i++) current = current->next;` loop of
`list_remove_index` (lab.c:107-109): `index` steps along `next`. -/
def walk (nodes : Ptr → Option node_t) : Nat → Ptr → Option Ptr
  | 0, current => some current
  | index + 1, current => do
    let c ← nodes current
    walk nodes index c.next

/-- `list_remove_index` (lab.c:103-120). -/
def list_remove_index (st : State W) (list : Ptr) (index : Nat) : Option (Ptr × State W) :=
  if list = NULL then some (NULL, st)
  else do
    let l ← st.lists list
    if index ≥ l.size then some (NULL, st)
    else do
      let h ← st.nodes l.head
      let current ← walk st.nodes index h.next
      let c ← st.nodes current
      let data := c.data
      let pn ← st.nodes c.prev
      let nodes1 := Function.update st.nodes c.prev (some { pn with next := c.next })
      let c1 ← nodes1 current
      let nn ← nodes1 c1.next
      let nodes2 := Function.update nodes1 c1.next (some { nn with prev := c1.prev })
      let _ ← nodes2 current
      let nodes3 := Function.update nodes2 current none
      some (data, { st with
        nodes := nodes3,
        lists := Function.update st.lists list
          (some { l with size := (l.size + SIZE_RANGE - 1) % SIZE_RANGE }) })

/-- The `while (current != list->head)` loop of `list_indexof`
(lab.c:138-144). -/
def list_indexof_loop (st : State W) (list data : Ptr) : Nat → Ptr → Nat → Option Int
  | 0, _, _ => none
  | fuel + 1, current, index => do
    let l ← st.lists list
    if current = l.head then some (-1)
    else do
      let c ← st.nodes current
      if l.compare_to c.data data = 0 then some (size_to_int index)
      else list_indexof_loop st list data fuel c.next ((index + 1) % SIZE_RANGE)

/-- `list_indexof` (lab.c:132-147). -/
def list_indexof (fuel : Nat) (st : State W) (list data : Ptr) : Option Int :=
  if list = NULL ∨ data = NULL then some (-1)
  else do
    let l ← st.lists list
    let h ← st.nodes l.head
    list_indexof_loop st list data fuel h.next 0

/-! ## Well-formed rings -/

/-- Address of the first cell of a chain, or `stop` when the chain is empty. -/
def firstAddr (cells : List (Ptr × Ptr)) (stop : Ptr) : Ptr :=
  match cells with
  | [] => stop
  | c :: _ => c.1

/-- Address of the last cell of a chain, or `start` when the chain is empty. -/
def lastAddr : List (Ptr × Ptr) → Ptr → Ptr
  | [], start => start
  | c :: rest, _ => lastAddr rest c.1

/-- The cells `(address, element)` form a doubly-linked chain in `nodes` that
is entered from `prev` and left towards `stop`. -/
def seg (nodes : Ptr → Option node_t) : Ptr → List (Ptr × Ptr) → Ptr → Prop
  | _, [], _ => True
  | prev, c :: rest, stop =>
    nodes c.1 = some { data := c.2, next := firstAddr rest stop, prev := prev } ∧
      seg nodes c.1 rest stop

/-- The list at address `list` is well formed and its non-sentinel nodes are,
front to back, the cells `(address, element)` of `cells`: the header is live,
`size` is the number of cells, the sentinel and the cells form a closed
doubly-linked ring of pairwise distinct, non-null 64-bit addresses. -/
def WF (st : State W) (list : Ptr) (cells : List (Ptr × Ptr)) : Prop :=
  list ≠ NULL ∧
  ∃ l h, st.lists list = some l ∧ st.nodes l.head = some h ∧
    l.size = cells.length ∧
    h.next = firstAddr cells l.head ∧ h.prev = lastAddr cells l.head ∧
    seg st.nodes l.head cells l.head ∧
    (l.head :: cells.map Prod.fst).Nodup ∧
    ∀ a ∈ l.head :: cells.map Prod.fst, a ≠ NULL ∧ a < SIZE_RANGE

/-- Front-to-back element references of a list of cells. -/
def contents (cells : List (Ptr × Ptr)) : List Ptr := cells.map Prod.snd

/-- The result of `malloc` for a node: `p` is a non-null 64-bit address at
which no node is live. -/
def FreshNode (st : State W) (p : Ptr) : Prop :=
  p ≠ NULL ∧ p < SIZE_RANGE ∧ st.nodes p = none

/-- The `size` field of the list at `list`, if that header is live. -/
def list_size (st : State W) (list : Ptr) : Option Nat :=
  (st.lists list).map (fun l => l.size)

/-- The element read by walking `i` next-steps from the node after the
sentinel. -/
def element_at (st : State W) (list : Ptr) (i : Nat) : Option Ptr := do
  let l ← st.lists list
  let h ← st.nodes l.head
  let current ← walk st.nodes i h.next
  let c ← st.nodes current
  some c.data

/-! ## Concrete lists used to exercise the theorems -/

/-- A comparator that reports equality exactly for identical references. -/
def ptr_compare : Ptr → Ptr → Int := fun a b => if a = b then 0 else 1

/-- A destructor that records the element it is given. -/
def log_destroy : Ptr → List Ptr → List Ptr := fun e w => w ++ [e]

/-- Address of the header of the example lists. -/
def LIST : Ptr := 4096

/-- Node heap of the example list with `n` elements: the sentinel is at
address 1 and the elements, front to back, at addresses `2 .. n + 1`; the node
at address `p` holds the element reference `p + 2 ^ 40`. -/
def ringNodes (n : Nat) : Ptr → Option node_t := fun p =>
  if p = 1 then some { data := NULL, next := if n = 0 then 1 else 2, prev := n + 1 }
  else if 2 ≤ p ∧ p ≤ n + 1 then
    some { data := p + 2 ^ 40, next := if p = n + 1 then 1 else p + 1, prev := p - 1 }
  else none

/-- Cells of the example list: `m` consecutive nodes starting at address `k`. -/
def ringCellsFrom (k m : Nat) : List (Ptr × Ptr) :=
  (List.range' k m).map (fun p => (p, p + 2 ^ 40))

/-- Cells of the example list with `n` elements. -/
def ringCells (n : Nat) : List (Ptr × Ptr) := ringCellsFrom 2 n

/-- Memory state holding the example list with `n` elements at `LIST`, with a
recording destructor, and the caller's handle to it at address 8. -/
def ringState (n : Nat) (cmp : Ptr → Ptr → Int) : State (List Ptr) :=
  { nodes := ringNodes n,
    lists := fun q => if q = LIST then
      some { destroy_data := log_destroy, compare_to := cmp, size := n, head := 1 } else none,
    handles := fun q => if q = 8 then some LIST else none,
    world := [] }

/-- A comparator that never reports equality, not even of a reference with
itself. -/
def never_equal : Ptr → Ptr → Int := fun _ _ => 1

/-- Element reference stored at position `2 ^ 31` of the example list with
`2 ^ 31 + 1` elements (the node at address `2 ^ 31 + 2`). -/
def bigKey : Ptr := 2 ^ 31 + 2 + 2 ^ 40

/-! ## Reachable states and ring observations -/

/-- Number of nodes visited by following `next` links from `current` until
the sentinel `head` is reached. -/
def ring_count (nodes : Ptr → Option node_t) (head : Ptr) : Nat → Ptr → Option Nat
  | 0, _ => none
  | fuel + 1, current =>
    if current = head then some 0
    else do
      let c ← nodes current
      let n ← ring_count nodes head fuel c.next
      some (n + 1)

/-- Doubly-linked consistency of the node at `n`: it is live, its neighbours
are live, `n.next.prev == n` and `n.prev.next == n`. -/
def Linked (nodes : Ptr → Option node_t) (n : Ptr) : Prop :=
  (nodes n).bind (fun nd => (nodes nd.next).map (fun nx => nx.prev)) = some n ∧
  (nodes n).bind (fun nd => (nodes nd.prev).map (fun pv => pv.next)) = some n

/-- States of the list at `list` reachable from a successful `list_init` by
any sequence of `list_add`, `list_remove_index` and `list_indexof` calls that
return, whether they succeed or fail.  Each `malloc` either fails or yields a
fresh node address. -/
inductive Reachable : State W → Ptr → Prop
  | init (s0 : State W) (destroy_data : Ptr → W → W) (compare_to : Ptr → Ptr → Int)
      (list_mem head_mem : Ptr) :
      list_mem ≠ NULL → FreshNode s0 head_mem →
      Reachable (list_init s0 destroy_data compare_to list_mem head_mem).2 list_mem
  | add (s s2 : State W) (list data new_mem r : Ptr) :
      Reachable s list → (new_mem = NULL ∨ FreshNode s new_mem) →
      list_add s list data new_mem = some (r, s2) → Reachable s2 list
  | remove (s s2 : State W) (list : Ptr) (index : Nat) (r : Ptr) :
      Reachable s list → list_remove_index s list index = some (r, s2) → Reachable s2 list
  | indexof (s : State W) (list data : Ptr) (fuel : Nat) (r : Int) :
      Reachable s list → list_indexof fuel s list data = some r → Reachable s list

/-- The memory state in which nothing is allocated. -/
def emptyState : State (List Ptr) :=
  { nodes := fun _ => none, lists := fun _ => none, handles := fun _ => none, world := [] }

/-- State after a successful `list_init` in the empty state: header at `LIST`,
sentinel at address 1. -/
def initState : State (List Ptr) :=
  (list_init emptyState log_destroy ptr_compare LIST 1).2

/-- State after `list_add` of `x` with allocation result `p` (the state itself
when the call does not return). -/
def afterAdd (s : State (List Ptr)) (x p : Ptr) : State (List Ptr) :=
  match list_add s LIST x p with
  | some r => r.2
  | none => s

/-- State after `list_remove_index` at `i` (the state itself when the call
does not return). -/
def afterRemove (s : State (List Ptr)) (i : Nat) : State (List Ptr) :=
  match list_remove_index s LIST i with
  | some r => r.2
  | none => s

/-- Example run: init, add 77, add 78, add 79, remove index 1. -/
def exampleState : State (List Ptr) :=
  afterRemove (afterAdd (afterAdd (afterAdd initState 77 2) 78 3) 79 4) 1

/-! ## Further observations: backward walks, call sequences, paths -/

/-- Steps along `prev`: `steps` applications of `current = current->prev`. -/
def walk_back (nodes : Ptr → Option node_t) : Nat → Ptr → Option Ptr
  | 0, current => some current
  | steps + 1, current => do
    let c ← nodes current
    walk_back nodes steps c.prev

/-- A sequence of `list_add` calls on the list at `list`: each call is a pair
`(data, new_mem)` of the element passed and the result of that call's
`malloc`.  Returns the number of calls that returned non-`NULL` and the final
state. -/
def run_adds (st : State W) (list : Ptr) : List (Ptr × Ptr) → Option (Nat × State W)
  | [] => some (0, st)
  | c :: rest => do
    let r ← list_add st list c.1 c.2
    let k ← run_adds r.2 list rest
    some ((if r.1 = NULL then 0 else 1) + k.1, k.2)

/-- Every `malloc` of a sequence of `list_add` calls either fails or yields a
node address that is fresh in the state the call starts from. -/
def AddsFresh (st : State W) (list : Ptr) : List (Ptr × Ptr) → Prop
  | [] => True
  | c :: rest =>
    (c.2 = NULL ∨ FreshNode st c.2) ∧
      ∀ r, list_add st list c.1 c.2 = some r → AddsFresh r.2 list rest

/-- Cells pushed by a sequence of `list_add` calls: the calls with a non-null
element and a successful allocation, most recent first. -/
def addedCells (calls : List (Ptr × Ptr)) : List (Ptr × Ptr) :=
  ((calls.filter (fun c => decide (c.1 ≠ NULL ∧ c.2 ≠ NULL))).map (fun c => (c.2, c.1))).reverse

/-- The reachable-state invariant about element references: the list is well
formed with cells `cells`, every stored element is non-null and the
sentinel's data is `NULL`. -/
def CleanRing (st : State W) (list : Ptr) (cells : List (Ptr × Ptr)) : Prop :=
  WF st list cells ∧ (∀ c ∈ cells, c.2 ≠ NULL) ∧
    ∃ l h, st.lists list = some l ∧ st.nodes l.head = some h ∧ h.data = NULL

/-- The cells `(address, element)` are the nodes met by following `next` links
from `current` until the sentinel `head` is reached for the first time. -/
def next_path (nodes : Ptr → Option node_t) (head : Ptr) : Ptr → List (Ptr × Ptr) → Prop
  | current, [] => current = head
  | current, c :: rest =>
    current = c.1 ∧ c.1 ≠ head ∧
      ∃ nd, nodes c.1 = some nd ∧ nd.data = c.2 ∧ next_path nodes head nd.next rest

/-! ## The integer scenario and the large example keys -/

/-- The integers the element references of the scenario point to: 1001, 1002
and 1003 hold 1, 2 and 3, and 2002 is a second reference to the integer 2. -/
def int_at (p : Ptr) : Int :=
  if p = 1001 then 1 else if p = 1002 then 2 else if p = 1003 then 3
  else if p = 2002 then 2 else 0

/-- Numeric comparator on references to integers. -/
def int_compare : Ptr → Ptr → Int := fun a b => int_at a - int_at b

/-- Freshly constructed list of the scenario (header at `LIST`, sentinel at
address 1, numeric comparator). -/
def scenario0 : State (List Ptr) :=
  (list_init emptyState log_destroy int_compare LIST 1).2

/-- The scenario after adding 3, then 2, then 1 (nodes at 2, 3 and 4). -/
def scenario3 : State (List Ptr) :=
  afterAdd (afterAdd (afterAdd scenario0 1003 2) 1002 3) 1001 4

/-- The scenario after the removal at index 1. -/
def scenario4 : State (List Ptr) := afterRemove scenario3 1

/-- Element reference stored at position `2 ^ 32 - 1` of the example list with
`2 ^ 32` elements (the node at address `2 ^ 32 + 1`). -/
def bigKey32 : Ptr := 2 ^ 32 + 1 + 2 ^ 40

/-! ## Auxiliary lemmas -/

theorem addr_count_bound (xs : List Nat) (N : Nat) (hnd : xs.Nodup)
    (hb : ∀ a ∈ xs, a ≠ 0 ∧ a < N) : xs.length ≤ N - 1 := by
  have hsub : xs.toFinset ⊆ Finset.Ico 1 N := by
    intro a ha
    have := hb a (List.mem_toFinset.mp ha)
    exact Finset.mem_Ico.mpr ⟨Nat.pos_of_ne_zero this.1, this.2⟩
  have hcard := Finset.card_le_card hsub
  rwa [List.toFinset_card_of_nodup hnd, Nat.card_Ico] at hcard

theorem firstAddr_append (xs ys : List (Ptr × Ptr)) (stop : Ptr) :
    firstAddr (xs ++ ys) stop = firstAddr xs (firstAddr ys stop) := by
  cases xs <;> rfl

theorem lastAddr_append (xs ys : List (Ptr × Ptr)) (start : Ptr) :
    lastAddr (xs ++ ys) start = lastAddr ys (lastAddr xs start) := by
  induction xs generalizing start with
  | nil => rfl
  | cons c rest ih => simp [lastAddr, ih]

theorem lastAddr_mem (xs : List (Ptr × Ptr)) (start : Ptr) (hne : xs ≠ []) :
    lastAddr xs start ∈ xs.map Prod.fst := by
  induction xs generalizing start with
  | nil => exact absurd rfl hne
  | cons c rest ih =>
    cases rest with
    | nil => simp [lastAddr]
    | cons d r =>
      have := ih c.1 (by simp)
      simp only [lastAddr] at this ⊢
      exact List.mem_cons_of_mem _ this

theorem firstAddr_mem (xs : List (Ptr × Ptr)) (stop : Ptr) (hne : xs ≠ []) :
    firstAddr xs stop ∈ xs.map Prod.fst := by
  cases xs with
  | nil => exact absurd rfl hne
  | cons c rest => simp [firstAddr]

theorem seg_frame (nodes nodes2 : Ptr → Option node_t) (prev stop : Ptr)
    (cells : List (Ptr × Ptr)) (hsame : ∀ a ∈ cells.map Prod.fst, nodes2 a = nodes a)
    (h : seg nodes prev cells stop) : seg nodes2 prev cells stop := by
  induction cells generalizing prev with
  | nil => trivial
  | cons c rest ih =>
    refine ⟨?_, ih c.1 (fun a ha => hsame a (by simp at ha ⊢; exact Or.inr ha)) h.2⟩
    rw [hsame c.1 (by simp)]
    exact h.1

theorem seg_update_of_not_mem (nodes : Ptr → Option node_t) (prev stop a : Ptr)
    (v : Option node_t) (cells : List (Ptr × Ptr)) (hna : a ∉ cells.map Prod.fst)
    (h : seg nodes prev cells stop) : seg (Function.update nodes a v) prev cells stop := by
  apply seg_frame nodes _ prev stop cells _ h
  intro b hb
  have : b ≠ a := fun hba => hna (hba ▸ hb)
  simp [Function.update, this]

theorem seg_append (nodes : Ptr → Option node_t) (prev stop : Ptr)
    (xs ys : List (Ptr × Ptr)) :
    seg nodes prev (xs ++ ys) stop ↔
      seg nodes prev xs (firstAddr ys stop) ∧ seg nodes (lastAddr xs prev) ys stop := by
  induction xs generalizing prev with
  | nil => simp [seg, lastAddr]
  | cons c rest ih =>
    simp only [List.cons_append, seg, lastAddr, List.append_eq, ih, firstAddr_append, and_assoc]

theorem walk_seg (nodes : Ptr → Option node_t) (prev stop : Ptr)
    (xs ys : List (Ptr × Ptr)) (h : seg nodes prev (xs ++ ys) stop) :
    walk nodes xs.length (firstAddr (xs ++ ys) stop) = some (firstAddr ys stop) := by
  induction xs generalizing prev with
  | nil => rfl
  | cons c rest ih =>
    simp only [List.cons_append, seg] at h
    simp only [List.cons_append, firstAddr, List.length_cons, walk, h.1, Option.bind_eq_bind,
      Option.some_bind]
    exact ih c.1 h.2

theorem seg_live (nodes : Ptr → Option node_t) (prev stop : Ptr) (cells : List (Ptr × Ptr))
    (h : seg nodes prev cells stop) : ∀ a ∈ cells.map Prod.fst, nodes a ≠ none := by
  induction cells generalizing prev with
  | nil => simp
  | cons c rest ih =>
    intro a ha
    simp only [List.map_cons, List.mem_cons] at ha
    rcases ha with rfl | ha
    · rw [h.1]; simp
    · exact ih c.1 h.2 a ha

theorem list_add_wf (st : State W) (list x p : Ptr) (cells : List (Ptr × Ptr))
    (hwf : WF st list cells) (hx : x ≠ NULL) (hp : FreshNode st p) :
    ∃ st2, list_add st list x p = some (list, st2) ∧ WF st2 list ((p, x) :: cells) := by
  obtain ⟨hlist, l, h, hl, hh, hsize, hnext, hprev, hseg, hnd, hb⟩ := hwf
  obtain ⟨hp0, hplt, hpfresh⟩ := hp
  have hph : p ≠ l.head := by
    intro e; rw [e, hh] at hpfresh; exact absurd hpfresh (by simp)
  have hpcells : p ∉ cells.map Prod.fst := fun hmem =>
    seg_live _ _ _ _ hseg p hmem hpfresh
  have hlen : cells.length + 1 < SIZE_RANGE := by
    have := addr_count_bound (l.head :: cells.map Prod.fst) SIZE_RANGE hnd hb
    simp [SIZE_RANGE] at this ⊢
    omega
  cases cells with
  | nil =>
    simp only [firstAddr, lastAddr] at hnext hprev
    simp [list_add, hlist, hx, hp0, hl, hh, hnext, hprev, Function.update, hph, Ne.symm hph]
    refine ⟨hlist, { l with size := (l.size + 1) % SIZE_RANGE },
      { data := h.data, next := p, prev := p }, by simp, by simp, ?_, ?_, ?_, ?_, ?_, ?_⟩
    · simp at hsize
      simp [hsize, SIZE_RANGE]
    · simp [firstAddr]
    · simp [lastAddr]
    · simp [seg, firstAddr, hph]
    · simp [Ne.symm hph]
    · intro a ha
      simp at ha
      rcases ha with rfl | rfl
      · exact hb _ (by simp)
      · exact ⟨hp0, hplt⟩
  | cons c rest =>
    obtain ⟨a, d⟩ := c
    simp only [firstAddr, lastAddr] at hnext hprev
    simp only [List.map_cons, List.nodup_cons, List.mem_cons, not_or] at hnd hpcells
    obtain ⟨⟨hha, hhrest⟩, harest, hndrest⟩ := hnd
    obtain ⟨hca, hseg2⟩ := hseg
    simp only at hca
    simp [list_add, hlist, hx, hp0, hl, hh, hnext, hprev, Function.update, hph, Ne.symm hph,
      hca, hpcells.1, Ne.symm hpcells.1, hha, Ne.symm hha]
    refine ⟨hlist, { l with size := (l.size + 1) % SIZE_RANGE },
      { data := h.data, next := p, prev := lastAddr rest a }, by simp, by simp, ?_, ?_, ?_, ?_, ?_, ?_⟩
    · simp only [hsize]
      exact Nat.mod_eq_of_lt hlen
    · simp [firstAddr]
    · simp [lastAddr]
    · refine ⟨?_, ?_, ?_⟩
      · simp [firstAddr, hph, hpcells.1, Function.update]
      · simp [hpcells.1, Ne.symm hha, Ne.symm hpcells.1, Function.update]
      · apply seg_frame st.nodes _ _ _ _ _ hseg2
        intro b hb2
        have h1 : b ≠ l.head := fun e => hhrest (e ▸ hb2)
        have h2 : b ≠ a := fun e => harest (e ▸ hb2)
        have h3 : b ≠ p := fun e => hpcells.2 (e ▸ hb2)
        simp [h1, h2, h3, Function.update]
    · simp only [List.map_cons, List.nodup_cons, List.mem_cons, not_or]
      exact ⟨⟨Ne.symm hph, hha, hhrest⟩, ⟨hpcells.1, hpcells.2⟩, harest, hndrest⟩
    · intro b hb2
      simp only [List.map_cons, List.mem_cons] at hb2
      rcases hb2 with rfl | rfl | hb2
      · exact hb _ (by simp)
      · exact ⟨hp0, hplt⟩
      · exact hb _ (by simp only [List.map_cons, List.mem_cons]; exact Or.inr hb2)

theorem lastAddr_cases (xs : List (Ptr × Ptr)) (start : Ptr) :
    (xs = [] ∧ lastAddr xs start = start) ∨ (xs ≠ [] ∧ lastAddr xs start ∈ xs.map Prod.fst) := by
  cases xs with
  | nil => exact Or.inl ⟨rfl, rfl⟩
  | cons c rest => exact Or.inr ⟨by simp, lastAddr_mem _ _ (by simp)⟩

theorem firstAddr_cases (xs : List (Ptr × Ptr)) (stop : Ptr) :
    (xs = [] ∧ firstAddr xs stop = stop) ∨ (xs ≠ [] ∧ firstAddr xs stop ∈ xs.map Prod.fst) := by
  cases xs with
  | nil => exact Or.inl ⟨rfl, rfl⟩
  | cons c rest => exact Or.inr ⟨by simp, firstAddr_mem _ _ (by simp)⟩

theorem firstAddr_of_ne_nil (xs : List (Ptr × Ptr)) (s t : Ptr) (hne : xs ≠ []) :
    firstAddr xs s = firstAddr xs t := by
  cases xs with
  | nil => exact absurd rfl hne
  | cons c rest => rfl

theorem lastAddr_of_ne_nil (xs : List (Ptr × Ptr)) (s t : Ptr) (hne : xs ≠ []) :
    lastAddr xs s = lastAddr xs t := by
  cases xs with
  | nil => exact absurd rfl hne
  | cons c rest => rfl

theorem seg_set_next (nodes : Ptr → Option node_t) (prev stop stop2 : Ptr)
    (xs : List (Ptr × Ptr)) (n : node_t) (hnd : (xs.map Prod.fst).Nodup)
    (hn : nodes (lastAddr xs prev) = some n) (h : seg nodes prev xs stop) :
    seg (Function.update nodes (lastAddr xs prev) (some { n with next := stop2 })) prev xs stop2 := by
  induction xs generalizing prev with
  | nil => trivial
  | cons c rest ih =>
    simp only [List.map_cons, List.nodup_cons] at hnd
    simp only [lastAddr] at hn ⊢
    rcases lastAddr_cases rest c.1 with ⟨hnil, hlast⟩ | ⟨hne, hlast⟩
    · subst hnil
      simp only [lastAddr] at hn ⊢
      rw [h.1] at hn
      cases hn
      simp [seg, firstAddr]
    · have hne2 : lastAddr rest c.1 ≠ c.1 := fun e => hnd.1 (e ▸ hlast)
      refine ⟨?_, ih c.1 hnd.2 hn h.2⟩
      rw [Function.update_noteq (Ne.symm hne2), h.1, firstAddr_of_ne_nil rest stop stop2 hne]

theorem seg_set_prev (nodes : Ptr → Option node_t) (prev prev2 stop : Ptr)
    (xs : List (Ptr × Ptr)) (n : node_t) (hnd : (xs.map Prod.fst).Nodup)
    (hn : nodes (firstAddr xs stop) = some n) (h : seg nodes prev xs stop) :
    seg (Function.update nodes (firstAddr xs stop) (some { n with prev := prev2 })) prev2 xs stop := by
  cases xs with
  | nil => trivial
  | cons c rest =>
    simp only [List.map_cons, List.nodup_cons] at hnd
    simp only [firstAddr] at hn ⊢
    rw [h.1] at hn
    cases hn
    refine ⟨by simp, ?_⟩
    exact seg_update_of_not_mem _ _ _ _ _ _ hnd.1 h.2

theorem firstAddr_nil (stop : Ptr) : firstAddr [] stop = stop := rfl

theorem firstAddr_cons (c : Ptr × Ptr) (rest : List (Ptr × Ptr)) (stop : Ptr) :
    firstAddr (c :: rest) stop = c.1 := rfl

theorem lastAddr_nil (start : Ptr) : lastAddr [] start = start := rfl

theorem lastAddr_cons (c : Ptr × Ptr) (rest : List (Ptr × Ptr)) (start : Ptr) :
    lastAddr (c :: rest) start = lastAddr rest c.1 := rfl

theorem list_remove_index_split (st : State W) (list a d : Ptr) (pre post : List (Ptr × Ptr))
    (hwf : WF st list (pre ++ (a, d) :: post)) :
    ∃ st2, list_remove_index st list pre.length = some (d, st2) ∧ WF st2 list (pre ++ post) := by
  obtain ⟨hlist, l, h, hl, hh, hsize, hnext, hprev, hseg, hnd, hb⟩ := hwf
  have hsplit := (seg_append _ _ _ _ _).mp hseg
  have hpre : seg st.nodes l.head pre a := hsplit.1
  have hca : st.nodes a = some ⟨d, firstAddr post l.head, lastAddr pre l.head⟩ :=
    hsplit.2.1
  have hpost : seg st.nodes a post l.head := hsplit.2.2
  have hnd0 := hnd
  simp only [List.map_append, List.map_cons, List.nodup_cons, List.mem_append, List.mem_cons,
    not_or, List.nodup_append] at hnd
  obtain ⟨⟨hhpre, hha, hhpost⟩, hndpre, ⟨hapost, hndpost⟩, hdisj⟩ := hnd
  have hapre : a ∉ pre.map Prod.fst := fun hm => hdisj hm (List.mem_cons_self _ _)
  have hprepost : ∀ b ∈ pre.map Prod.fst, b ∉ post.map Prod.fst :=
    fun b hb1 hb2 => hdisj hb1 (List.mem_cons_of_mem _ hb2)
  have hwalk : walk st.nodes pre.length h.next = some a := by
    rw [hnext]; exact walk_seg _ _ _ _ _ hseg
  have hmp : lastAddr pre l.head ≠ a ∧ lastAddr pre l.head ∉ post.map Prod.fst ∧
      ∃ pn, st.nodes (lastAddr pre l.head) = some pn := by
    rcases lastAddr_cases pre l.head with ⟨_, e⟩ | ⟨_, hm⟩
    · rw [e]; exact ⟨hha, hhpost, h, hh⟩
    · refine ⟨fun e => hapre (e ▸ hm), hprepost _ hm, ?_⟩
      exact Option.ne_none_iff_exists'.mp (seg_live _ _ _ _ hpre _ hm)
  have hnx : firstAddr post l.head ≠ a ∧ firstAddr post l.head ∉ pre.map Prod.fst ∧
      ∃ nn, st.nodes (firstAddr post l.head) = some nn := by
    rcases firstAddr_cases post l.head with ⟨_, e⟩ | ⟨_, hm⟩
    · rw [e]; exact ⟨hha, hhpre, h, hh⟩
    · refine ⟨fun e => hapost (e ▸ hm), fun hm2 => hprepost _ hm2 hm, ?_⟩
      exact Option.ne_none_iff_exists'.mp (seg_live _ _ _ _ hpost _ hm)
  obtain ⟨hmpa, hmppost, pn, hpn⟩ := hmp
  obtain ⟨hnxa, hnxpre, nn0, hnn0⟩ := hnx
  have hlt : pre.length < l.size := by rw [hsize]; simp
  have hnn : ∃ nn, Function.update st.nodes (lastAddr pre l.head)
      (some { pn with next := firstAddr post l.head }) (firstAddr post l.head) = some nn := by
    by_cases e : firstAddr post l.head = lastAddr pre l.head
    · rw [e]; exact ⟨_, Function.update_same _ _ _⟩
    · rw [Function.update_noteq e]; exact ⟨_, hnn0⟩
  obtain ⟨nn, hnn⟩ := hnn
  refine ⟨{ st with
    nodes := Function.update (Function.update (Function.update st.nodes (lastAddr pre l.head)
      (some { pn with next := firstAddr post l.head })) (firstAddr post l.head)
      (some { nn with prev := lastAddr pre l.head })) a none,
    lists := Function.update st.lists list
      (some { l with size := (l.size + SIZE_RANGE - 1) % SIZE_RANGE }) }, ?_, ?_⟩
  · simp only [list_remove_index, hlist, if_false, hl, Option.bind_eq_bind, Option.some_bind, ge_iff_le,
      Nat.not_le.mpr hlt, hh, hwalk, hca, hpn, Function.update_noteq (Ne.symm hmpa), hnn,
      Function.update_noteq (Ne.symm hnxa)]
  · have hhead : ∃ h2, Function.update (Function.update (Function.update st.nodes
        (lastAddr pre l.head) (some { pn with next := firstAddr post l.head }))
        (firstAddr post l.head) (some { nn with prev := lastAddr pre l.head })) a none l.head
          = some h2 ∧ h2.next = firstAddr (pre ++ post) l.head ∧
            h2.prev = lastAddr (pre ++ post) l.head := by
      rw [Function.update_noteq hha]
      simp only [firstAddr_append, lastAddr_append] at hnext hprev ⊢
      rcases lastAddr_cases pre l.head with ⟨hp1, e1⟩ | ⟨hp1, hm1⟩ <;>
        rcases firstAddr_cases post l.head with ⟨hp2, e2⟩ | ⟨hp2, hm2⟩
      · subst hp1; subst hp2
        simp only [lastAddr_nil, firstAddr_nil, lastAddr_cons, firstAddr_cons] at hnn hpn hnext hprev ⊢
        rw [Function.update_same] at hnn ⊢
        cases hnn
        exact ⟨_, rfl, rfl, rfl⟩
      · subst hp1
        have hne : l.head ≠ firstAddr post l.head := fun e => hhpost (e ▸ hm2)
        simp only [lastAddr_nil, firstAddr_nil, lastAddr_cons, firstAddr_cons] at hnn hpn hnext hprev ⊢
        rw [Function.update_noteq hne, Function.update_same]
        rw [hh] at hpn
        cases hpn
        refine ⟨_, rfl, rfl, ?_⟩
        simp only [hprev]
        exact lastAddr_of_ne_nil _ _ _ hp2
      · subst hp2
        have hne : lastAddr pre l.head ≠ l.head := fun e => hhpre (e ▸ hm1)
        simp only [lastAddr_nil, firstAddr_nil, lastAddr_cons, firstAddr_cons] at hnn hpn hnext hprev ⊢
        rw [Function.update_same]
        rw [Function.update_noteq (Ne.symm hne), hh] at hnn
        cases hnn
        refine ⟨_, rfl, ?_, rfl⟩
        simp only [hnext]
        exact firstAddr_of_ne_nil _ _ _ hp1
      · have hne1 : l.head ≠ firstAddr post l.head := fun e => hhpost (e ▸ hm2)
        have hne2 : l.head ≠ lastAddr pre l.head := fun e => hhpre (e ▸ hm1)
        rw [Function.update_noteq hne1, Function.update_noteq hne2]
        refine ⟨h, hh, ?_, ?_⟩
        · rw [hnext]; exact firstAddr_of_ne_nil _ _ _ hp1
        · rw [hprev]; simp only [lastAddr_cons]; exact lastAddr_of_ne_nil _ _ _ hp2
    obtain ⟨h2, hh2, hn2, hp2⟩ := hhead
    refine ⟨hlist, { l with size := (l.size + SIZE_RANGE - 1) % SIZE_RANGE }, h2,
      Function.update_same _ _ _, hh2, ?_, hn2, hp2, ?_, ?_, ?_⟩
    · have hbound := addr_count_bound _ SIZE_RANGE hnd0 hb
      simp only [List.length_cons, List.length_map, List.length_append, SIZE_RANGE] at hbound hsize ⊢
      rw [hsize]
      omega
    · refine (seg_append _ _ _ _ _).mpr ⟨?_, ?_⟩
      · exact seg_update_of_not_mem _ _ _ _ _ _ hapre
          (seg_update_of_not_mem _ _ _ _ _ _ hnxpre
            (seg_set_next st.nodes l.head a _ pre pn hndpre hpn hpre))
      · exact seg_update_of_not_mem _ _ _ _ _ _ hapost
          (seg_set_prev _ a _ l.head post nn hndpost hnn
            (seg_update_of_not_mem _ _ _ _ _ _ hmppost hpost))
    · simp only [List.map_append, List.nodup_cons, List.mem_append, not_or, List.nodup_append]
      exact ⟨⟨hhpre, hhpost⟩, hndpre, hndpost, fun b hb1 hb2 => hprepost b hb1 hb2⟩
    · intro b hb2
      apply hb
      simp only [List.map_append, List.map_cons, List.mem_cons, List.mem_append] at hb2 ⊢
      tauto

theorem split_at_index (cells : List (Ptr × Ptr)) (i : Nat) (hi : i < cells.length) :
    cells = cells.take i ++ (cells[i].1, cells[i].2) :: cells.drop (i + 1) ∧
      (cells.take i).length = i ∧
      cells.eraseIdx i = cells.take i ++ cells.drop (i + 1) := by
  refine ⟨?_, ?_, ?_⟩
  · simp
  · simp; omega
  · exact List.eraseIdx_eq_take_drop_succ cells i

theorem contents_eraseIdx (cells : List (Ptr × Ptr)) (i : Nat) :
    contents (cells.eraseIdx i) = (contents cells).eraseIdx i := by
  induction cells generalizing i with
  | nil => rfl
  | cons c rest ih =>
    cases i with
    | zero => rfl
    | succ j => simp only [List.eraseIdx_cons_succ, contents, List.map_cons] at ih ⊢; rw [ih]

theorem list_size_of_wf (st : State W) (list : Ptr) (cells : List (Ptr × Ptr))
    (hwf : WF st list cells) : list_size st list = some cells.length := by
  obtain ⟨_, l, h, hl, _, hsize, _⟩ := hwf
  simp [list_size, hl, hsize]

theorem element_at_of_wf (st : State W) (list a d : Ptr) (pre post : List (Ptr × Ptr))
    (hwf : WF st list (pre ++ (a, d) :: post)) : element_at st list pre.length = some d := by
  obtain ⟨_, l, h, hl, hh, _, hnext, _, hseg, _, _⟩ := hwf
  have hsplit := (seg_append _ _ _ _ _).mp hseg
  have hca : st.nodes a = some ⟨d, firstAddr post l.head, lastAddr pre l.head⟩ := hsplit.2.1
  have hwalk : walk st.nodes pre.length h.next = some a := by
    rw [hnext]; exact walk_seg _ _ _ _ _ hseg
  simp [element_at, hl, hh, hwalk, hca]

theorem list_remove_index_wf (st : State W) (list : Ptr) (cells : List (Ptr × Ptr))
    (i : Nat) (hwf : WF st list cells) (hi : i < cells.length) :
    ∃ c st2, cells[i]? = some c ∧ list_remove_index st list i = some (c.2, st2) ∧
      element_at st list i = some c.2 ∧ WF st2 list (cells.eraseIdx i) := by
  obtain ⟨hsplit, hlen, herase⟩ := split_at_index cells i hi
  have hwf2 : WF st list (cells.take i ++ (cells[i].1, cells[i].2) :: cells.drop (i + 1)) := by
    rw [← hsplit]; exact hwf
  obtain ⟨st2, hrun, hwf3⟩ := list_remove_index_split st list _ _ _ _ hwf2
  rw [hlen] at hrun
  rw [← herase] at hwf3
  refine ⟨cells[i], st2, by simp [hi], hrun, ?_, hwf3⟩
  have := element_at_of_wf st list _ _ _ _ hwf2
  rwa [hlen] at this

theorem list_remove_index_out_of_range (st : State W) (list : Ptr) (index : Nat)
    (h : list = NULL ∨ ∃ l, st.lists list = some l ∧ l.size ≤ index) :
    list_remove_index st list index = some (NULL, st) := by
  rcases h with h | ⟨l, hl, hle⟩
  · simp [list_remove_index, h]
  · by_cases h0 : list = NULL
    · simp [list_remove_index, h0]
    · simp [list_remove_index, h0, hl, hle]

theorem state_eq_of_heaps (st : State W) (nodes : Ptr → Option node_t)
    (lists : Ptr → Option (list_t W)) (hn : nodes = st.nodes) (hl : lists = st.lists) :
    ({ nodes := nodes, lists := lists, handles := st.handles, world := st.world } : State W)
      = st := by
  subst hn; subst hl; rfl

theorem add_remove_state (st : State W) (list x p : Ptr) (cells : List (Ptr × Ptr))
    (hwf : WF st list cells) (hx : x ≠ NULL) (hp : FreshNode st p) :
    ∃ st1, list_add st list x p = some (list, st1) ∧
      list_remove_index st1 list 0 = some (x, st) := by
  obtain ⟨hlist, l, h, hl, hh, hsize, hnext, hprev, hseg, hnd, hb⟩ := hwf
  obtain ⟨hp0, hplt, hpfresh⟩ := hp
  obtain ⟨hd, hn, hpv⟩ := h
  simp only at hnext hprev
  subst hnext
  subst hprev
  have hph : p ≠ l.head := by
    intro e; rw [e, hh] at hpfresh; exact absurd hpfresh (by simp)
  have hpcells : p ∉ cells.map Prod.fst := fun hmem =>
    seg_live _ _ _ _ hseg p hmem hpfresh
  have hlen : cells.length + 1 < SIZE_RANGE := by
    have := addr_count_bound (l.head :: cells.map Prod.fst) SIZE_RANGE hnd hb
    simp [SIZE_RANGE] at this ⊢
    omega
  have hsz : (l.size + 1) % SIZE_RANGE = l.size + 1 := by
    rw [hsize]; exact Nat.mod_eq_of_lt hlen
  have hsz2 : (l.size + 1 + SIZE_RANGE - 1) % SIZE_RANGE = l.size := by
    rw [hsize] at hsz ⊢
    have : cells.length + 1 + SIZE_RANGE - 1 = cells.length + SIZE_RANGE := by omega
    rw [this, Nat.add_mod_right]
    exact Nat.mod_eq_of_lt (by omega)
  have hsz3 : l.size % SIZE_RANGE = l.size := by
    rw [hsize]; exact Nat.mod_eq_of_lt (by omega)
  have hlists : Function.update st.lists list (some { l with size := l.size % SIZE_RANGE })
      = st.lists := by
    rw [hsz3]
    funext q
    by_cases hq : q = list
    · subst hq; simp [hl]
    · simp [Function.update, hq]
  cases cells with
  | nil =>
    simp [list_add, list_remove_index, walk, hlist, hx, hp0, hl, hh, Function.update, hph,
      Ne.symm hph, hsz, hsz2, firstAddr_nil, lastAddr_nil]
    apply state_eq_of_heaps st _ _ _ hlists
    funext q
    by_cases hq1 : q = p
    · subst hq1; simp [hpfresh]
    · by_cases hq2 : q = l.head
      · subst hq2; simp [hh, Function.update, hph, Ne.symm hph, firstAddr_nil, lastAddr_nil]
      · simp [Function.update, hq1, hq2]
  | cons c rest =>
    obtain ⟨a, d⟩ := c
    simp only [List.map_cons, List.nodup_cons, List.mem_cons, not_or] at hnd hpcells
    obtain ⟨⟨hha, hhrest⟩, harest, hndrest⟩ := hnd
    obtain ⟨hca, hseg2⟩ := hseg
    simp only at hca
    simp [list_add, list_remove_index, walk, hlist, hx, hp0, hl, hh, Function.update, hph,
      Ne.symm hph, hca, hpcells.1, Ne.symm hpcells.1, hha, Ne.symm hha, hsz, hsz2, firstAddr_cons,
      lastAddr_cons]
    apply state_eq_of_heaps st _ _ _ hlists
    funext q
    by_cases hq1 : q = p
    · subst hq1; simp [hpfresh]
    · by_cases hq2 : q = l.head
      · subst hq2; simp [hh, hha, Ne.symm hha, Function.update, hph, Ne.symm hph, firstAddr_cons, lastAddr_cons]
      · by_cases hq3 : q = a
        · subst hq3; simp [hq1, hq2, hca]
        · simp [Function.update, hq1, hq2, hq3]

theorem list_indexof_loop_first_match (st : State W) (list data a e : Ptr) (l : list_t W)
    (post : List (Ptr × Ptr)) (hl : st.lists list = some l) (he : l.compare_to e data = 0) :
    ∀ (pre : List (Ptr × Ptr)) (prev index fuel : Nat),
      seg st.nodes prev (pre ++ (a, e) :: post) l.head →
      l.head ∉ (pre ++ (a, e) :: post).map Prod.fst →
      (∀ c ∈ pre, l.compare_to c.2 data ≠ 0) →
      pre.length < fuel → index + pre.length < SIZE_RANGE →
      list_indexof_loop st list data fuel (firstAddr (pre ++ (a, e) :: post) l.head) index
        = some (size_to_int (index + pre.length)) := by
  intro pre
  induction pre with
  | nil =>
    intro prev index fuel hseg hhead _ hfuel _
    obtain ⟨k, rfl⟩ : ∃ k, fuel = k + 1 := ⟨fuel - 1, by simp at hfuel; omega⟩
    have hne : a ≠ l.head := by
      intro e2; apply hhead; simp [e2]
    have hca := hseg.1
    simp only at hca
    simp [list_indexof_loop, hl, firstAddr_cons, hne, hca, he]
  | cons c rest ih =>
    intro prev index fuel hseg hhead hpre hfuel hidx
    obtain ⟨k, rfl⟩ : ∃ k, fuel = k + 1 := ⟨fuel - 1, by simp at hfuel; omega⟩
    have hne : c.1 ≠ l.head := by
      intro e2; apply hhead; simp [e2]
    have hcc := hseg.1
    have hc0 : l.compare_to c.2 data ≠ 0 := hpre c (List.mem_cons_self _ _)
    simp only [List.length_cons] at hfuel hidx
    have hmod : (index + 1) % SIZE_RANGE = index + 1 := Nat.mod_eq_of_lt (by omega)
    have hrec := ih c.1 (index + 1) k hseg.2
      (fun hm => hhead (by simp only [List.cons_append, List.map_cons]; exact List.mem_cons_of_mem _ hm))
      (fun c2 hc2 => hpre c2 (List.mem_cons_of_mem _ hc2)) (by omega) (by omega)
    simp only [List.cons_append, firstAddr_cons, list_indexof_loop, hl, Option.bind_eq_bind,
      Option.some_bind, hne, if_false, hcc, hc0, hmod, List.append_eq]
    rw [hrec]
    congr 2
    simp only [List.length_cons]
    omega

theorem ringCellsFrom_succ (k m : Nat) :
    ringCellsFrom k (m + 1) = (k, k + 2 ^ 40) :: ringCellsFrom (k + 1) m := by
  simp [ringCellsFrom, List.range'_succ]

theorem ringCellsFrom_zero (k : Nat) : ringCellsFrom k 0 = [] := rfl

theorem ringCellsFrom_concat (k m : Nat) :
    ringCellsFrom k (m + 1) = ringCellsFrom k m ++ [(k + m, k + m + 2 ^ 40)] := by
  simp [ringCellsFrom, List.range'_concat]

theorem ringCellsFrom_length (k m : Nat) : (ringCellsFrom k m).length = m := by
  simp [ringCellsFrom]

theorem ringCellsFrom_addrs (k m : Nat) :
    (ringCellsFrom k m).map Prod.fst = List.range' k m := by
  simp [ringCellsFrom, List.map_map, Function.comp_def]

theorem ring_seg (n : Nat) : ∀ (m k : Nat), 2 ≤ k → k + m = n + 2 →
    seg (ringNodes n) (k - 1) (ringCellsFrom k m) 1 := by
  intro m
  induction m with
  | zero => intro k _ _; trivial
  | succ m ih =>
    intro k hk hkm
    rw [ringCellsFrom_succ]
    refine ⟨?_, ?_⟩
    · have h1 : k ≠ 1 := by omega
      have h2 : 2 ≤ k ∧ k ≤ n + 1 := by omega
      simp only [ringNodes, h1, if_false, h2, and_self, if_true]
      cases m with
      | zero =>
        have : k = n + 1 := by omega
        simp [ringCellsFrom_zero, firstAddr_nil, this]
      | succ j =>
        have : k ≠ n + 1 := by omega
        simp [ringCellsFrom_succ, firstAddr_cons, this]
    · have := ih (k + 1) (by omega) (by omega)
      simpa using this

theorem ring_wf (n : Nat) (cmp : Ptr → Ptr → Int) (hn : n + 1 < SIZE_RANGE) :
    WF (ringState n cmp) LIST (ringCells n) := by
  refine ⟨by decide, { destroy_data := log_destroy, compare_to := cmp, size := n, head := 1 },
    { data := NULL, next := if n = 0 then 1 else 2, prev := n + 1 }, by simp [ringState],
    by simp [ringState, ringNodes], ?_, ?_, ?_, ?_, ?_, ?_⟩
  · simp [ringCells, ringCellsFrom_length]
  · cases n with
    | zero => rfl
    | succ j => simp [ringCells, ringCellsFrom_succ, firstAddr_cons]
  · cases n with
    | zero => rfl
    | succ j =>
      simp only [ringCells, ringCellsFrom_concat, lastAddr_append, lastAddr_cons, lastAddr_nil]
      unfold Ptr
      omega
  · exact ring_seg n n 2 (by omega) (by omega)
  · simp only [ringCells, ringCellsFrom_addrs, List.nodup_cons, List.mem_range'_1, not_and]
    exact ⟨by omega, List.nodup_range' 2 n⟩
  · intro a ha
    simp only [ringCells, ringCellsFrom_addrs, List.mem_cons, List.mem_range'_1] at ha
    simp only [NULL, SIZE_RANGE] at hn ⊢
    unfold Ptr at *
    omega

theorem list_indexof_first_match (st : State W) (list data a e : Ptr) (l : list_t W)
    (pre post : List (Ptr × Ptr)) (fuel : Nat)
    (hwf : WF st list (pre ++ (a, e) :: post)) (hl : st.lists list = some l)
    (hdata : data ≠ NULL) (hpre : ∀ c ∈ pre, l.compare_to c.2 data ≠ 0)
    (he : l.compare_to e data = 0) (hfuel : pre.length < fuel) :
    list_indexof fuel st list data = some (size_to_int pre.length) := by
  obtain ⟨hlist, l2, h, hl2, hh, hsize, hnext, hprev, hseg, hnd, hb⟩ := hwf
  rw [hl] at hl2
  cases hl2
  have hbound := addr_count_bound _ SIZE_RANGE hnd hb
  have hhead : l.head ∉ (pre ++ (a, e) :: post).map Prod.fst := (List.nodup_cons.mp hnd).1
  have hloop := list_indexof_loop_first_match st list data a e l post hl he pre l.head 0 fuel
    hseg hhead hpre hfuel (by
      simp only [List.length_cons, List.length_map, List.length_append] at hbound
      omega)
  simp only [list_indexof, hlist, hdata, or_self, if_false, hl, Option.bind_eq_bind,
    Option.some_bind, hh, hnext, hloop, Nat.zero_add]

theorem size_to_int_small (n : Nat) (hn : n < 2 ^ 31) : size_to_int n = (n : Int) := by
  have h1 : n % 2 ^ 32 = n := Nat.mod_eq_of_lt (by omega)
  unfold size_to_int
  rw [h1, if_pos hn]

theorem list_indexof_first_match_small (st : State W) (list data a e : Ptr) (l : list_t W)
    (pre post : List (Ptr × Ptr)) (fuel : Nat)
    (hwf : WF st list (pre ++ (a, e) :: post)) (hl : st.lists list = some l)
    (hdata : data ≠ NULL) (hpre : ∀ c ∈ pre, l.compare_to c.2 data ≠ 0)
    (he : l.compare_to e data = 0) (hfuel : pre.length < fuel) (hsmall : pre.length < 2 ^ 31) :
    list_indexof fuel st list data = some (pre.length : Int) := by
  rw [list_indexof_first_match st list data a e l pre post fuel hwf hl hdata hpre he hfuel,
    size_to_int_small pre.length hsmall]

theorem list_add_keeps_callbacks (st st2 : State W) (list x p r : Ptr) (l : list_t W)
    (hl : st.lists list = some l) (hr : r ≠ NULL) (hrun : list_add st list x p = some (r, st2)) :
    ∃ l2, st2.lists list = some l2 ∧ l2.compare_to = l.compare_to ∧
      l2.destroy_data = l.destroy_data ∧ l2.head = l.head := by
  unfold list_add at hrun
  by_cases h1 : list = NULL ∨ x = NULL
  · rw [if_pos h1] at hrun; simp at hrun; exact absurd hrun.1.symm hr
  rw [if_neg h1] at hrun
  by_cases h2 : p = NULL
  · simp only [h2, if_true] at hrun; simp at hrun; exact absurd hrun.1.symm hr
  simp only [h2, if_false, hl, Option.bind_eq_bind, Option.some_bind] at hrun
  simp only [Option.bind_eq_some] at hrun
  obtain ⟨_, _, _, _, _, _, _, _, hfin⟩ := hrun
  simp only [Option.some.injEq, Prod.mk.injEq] at hfin
  obtain ⟨_, rfl⟩ := hfin
  exact ⟨_, Function.update_same _ _ _, rfl, rfl, rfl⟩

theorem list_destroy_loop_spec (hd p : Ptr) (l : list_t W) :
    ∀ (cells : List (Ptr × Ptr)) (st : State W) (prev fuel : Nat),
      st.handles hd = some p → st.lists p = some l →
      seg st.nodes prev cells l.head → l.head ∉ cells.map Prod.fst →
      (cells.map Prod.fst).Nodup → cells.length < fuel →
      ∃ st2, list_destroy_loop hd fuel st (firstAddr cells l.head) = some st2 ∧
        st2.world = (contents cells).foldl (fun w e => l.destroy_data e w) st.world ∧
        st2.lists = st.lists ∧ st2.handles = st.handles ∧
        (∀ a ∈ cells.map Prod.fst, st2.nodes a = none) ∧
        (∀ a, a ∉ cells.map Prod.fst → st2.nodes a = st.nodes a) := by
  intro cells
  induction cells with
  | nil =>
    intro st prev fuel hh hl _ _ _ hfuel
    obtain ⟨k, rfl⟩ : ∃ k, fuel = k + 1 := ⟨fuel - 1, by simp at hfuel; omega⟩
    refine ⟨st, ?_, rfl, rfl, rfl, by simp, fun _ _ => rfl⟩
    simp [list_destroy_loop, hh, hl, firstAddr_nil]
  | cons c rest ih =>
    intro st prev fuel hh hl hseg hhead hnd hfuel
    obtain ⟨k, rfl⟩ : ∃ k, fuel = k + 1 := ⟨fuel - 1, by simp at hfuel; omega⟩
    simp only [List.map_cons, List.mem_cons, not_or, List.nodup_cons] at hhead hnd
    have hne : c.1 ≠ l.head := Ne.symm hhead.1
    have hcc := hseg.1
    obtain ⟨st2, hrun, hworld, hlists, hhandles, hfreed, hkept⟩ :=
      ih { st with world := l.destroy_data c.2 st.world,
                   nodes := Function.update st.nodes c.1 none } c.1 k hh hl
        (seg_update_of_not_mem _ _ _ _ _ _ hnd.1 hseg.2) hhead.2 hnd.2
        (by simp only [List.length_cons] at hfuel; omega)
    refine ⟨st2, ?_, ?_, hlists, hhandles, ?_, ?_⟩
    · simp only [list_destroy_loop, hh, hl, Option.bind_eq_bind, Option.some_bind, firstAddr_cons,
        hne, if_false, hcc]
      exact hrun
    · rw [hworld]; rfl
    · intro a ha
      simp only [List.map_cons, List.mem_cons] at ha
      by_cases har : a ∈ rest.map Prod.fst
      · exact hfreed a har
      · rcases ha with rfl | ha
        · rw [hkept _ har]; simp
        · exact absurd ha har
    · intro a ha
      simp only [List.map_cons, List.mem_cons, not_or] at ha
      rw [hkept a ha.2]
      simp [Function.update, ha.1]

theorem list_destroy_result (st : State W) (hd p : Ptr) (l : list_t W)
    (cells : List (Ptr × Ptr)) (fuel : Nat)
    (hhd : hd ≠ NULL) (hh : st.handles hd = some p) (hwf : WF st p cells)
    (hl : st.lists p = some l) (hfuel : cells.length < fuel) :
    ∃ st2, list_destroy fuel st hd = some st2 ∧
      st2.world = (contents cells).foldl (fun w e => l.destroy_data e w) st.world ∧
      st2.handles hd = some NULL ∧
      st2.lists p = none ∧
      (∀ a ∈ l.head :: cells.map Prod.fst, st2.nodes a = none) := by
  obtain ⟨hp, l2, h, hl2, hhead, hsize, hnext, hprev, hseg, hnd, hb⟩ := hwf
  rw [hl] at hl2
  cases hl2
  obtain ⟨hhc, hndc⟩ := List.nodup_cons.mp hnd
  obtain ⟨st1, hrun, hworld, hlists, hhandles, hfreed, hkept⟩ :=
    list_destroy_loop_spec hd p l cells st l.head fuel hh hl hseg hhc hndc hfuel
  have hh1 : st1.handles hd = some p := by rw [hhandles]; exact hh
  have hl1 : st1.lists p = some l := by rw [hlists]; exact hl
  have hhead1 : st1.nodes l.head = some h := by rw [hkept _ hhc]; exact hhead
  refine ⟨{ nodes := Function.update st1.nodes l.head none,
             lists := Function.update st1.lists p none,
             handles := Function.update st1.handles hd (some NULL),
             world := st1.world }, ?_, ?_, ?_, ?_, ?_⟩
  · simp only [list_destroy, hhd, if_false, hh, Option.bind_eq_bind, Option.some_bind, hp, hl, hhead,
      hnext, hrun, hh1, hl1, hhead1]
  · exact hworld
  · simp
  · simp
  · intro a ha
    simp only [List.mem_cons] at ha
    rcases ha with rfl | ha
    · simp
    · have hne : a ≠ l.head := fun e => hhc (e ▸ ha)
      simp [Function.update, hne, hfreed a ha]

theorem list_init_wf (s0 : State W) (dd : Ptr → W → W) (cmp : Ptr → Ptr → Int)
    (lm hm : Ptr) (hlm : lm ≠ NULL) (hhm : FreshNode s0 hm) :
    WF (list_init s0 dd cmp lm hm).2 lm [] := by
  obtain ⟨h0, hlt, _⟩ := hhm
  simp only [list_init, hlm, h0, if_false]
  exact ⟨hlm, _, _, Function.update_same _ _ _, Function.update_same _ _ _, rfl, rfl, rfl, trivial,
    by simp, by simpa using ⟨h0, hlt⟩⟩

theorem reachable_wf (st : State W) (list : Ptr) (hr : Reachable st list) :
    ∃ cells, WF st list cells := by
  induction hr with
  | init s0 dd cmp lm hm hlm hhm => exact ⟨[], list_init_wf s0 dd cmp lm hm hlm hhm⟩
  | add s s2 list data p r _ hp hrun ih =>
    obtain ⟨cells, hwf⟩ := ih
    by_cases hd : data = NULL
    · simp [list_add, hd] at hrun
      rw [← hrun.2]; exact ⟨cells, hwf⟩
    by_cases hp0 : p = NULL
    · simp [list_add, hp0] at hrun
      rw [← hrun.2]; exact ⟨cells, hwf⟩
    rcases hp with hp | hp
    · exact absurd hp hp0
    obtain ⟨st2, hrun2, hwf2⟩ := list_add_wf s list data p cells hwf hd hp
    rw [hrun2] at hrun
    simp only [Option.some.injEq, Prod.mk.injEq] at hrun
    rw [← hrun.2]; exact ⟨_, hwf2⟩
  | remove s s2 list index r _ hrun ih =>
    obtain ⟨cells, hwf⟩ := ih
    by_cases hi : index < cells.length
    · obtain ⟨c, st2, _, hrun2, _, hwf2⟩ := list_remove_index_wf s list cells index hwf hi
      rw [hrun2] at hrun
      simp only [Option.some.injEq, Prod.mk.injEq] at hrun
      rw [← hrun.2]; exact ⟨_, hwf2⟩
    · have hwf0 := hwf
      obtain ⟨_, l, _, hl, _, hsize, _⟩ := hwf0
      rw [list_remove_index_out_of_range s list index (Or.inr ⟨l, hl, by omega⟩)] at hrun
      simp only [Option.some.injEq, Prod.mk.injEq] at hrun
      rw [← hrun.2]; exact ⟨cells, hwf⟩
  | indexof s list data fuel r _ _ ih => exact ih

theorem reachable_calls_return (st : State W) (list : Ptr) (hr : Reachable st list) :
    (∀ data p, (p = NULL ∨ FreshNode st p) → ∃ r st2, list_add st list data p = some (r, st2)) ∧
      ∀ index, ∃ r st2, list_remove_index st list index = some (r, st2) := by
  obtain ⟨cells, hwf⟩ := reachable_wf st list hr
  refine ⟨fun data p hp => ?_, fun index => ?_⟩
  · by_cases hd : data = NULL
    · exact ⟨NULL, st, by simp [list_add, hd]⟩
    by_cases hp0 : p = NULL
    · exact ⟨NULL, st, by simp [list_add, hp0]⟩
    rcases hp with hp | hp
    · exact absurd hp hp0
    obtain ⟨st2, hrun, _⟩ := list_add_wf st list data p cells hwf hd hp
    exact ⟨list, st2, hrun⟩
  · by_cases hi : index < cells.length
    · obtain ⟨c, st2, _, hrun, _⟩ := list_remove_index_wf st list cells index hwf hi
      exact ⟨c.2, st2, hrun⟩
    · obtain ⟨_, l, _, hl, _, hsize, _⟩ := hwf
      exact ⟨NULL, st, list_remove_index_out_of_range st list index
        (Or.inr ⟨l, hl, by omega⟩)⟩

theorem ring_count_seg (nodes : Ptr → Option node_t) (head : Ptr) :
    ∀ (cells : List (Ptr × Ptr)) (prev fuel : Nat),
      seg nodes prev cells head → head ∉ cells.map Prod.fst → cells.length < fuel →
      ring_count nodes head fuel (firstAddr cells head) = some cells.length := by
  intro cells
  induction cells with
  | nil =>
    intro prev fuel _ _ hfuel
    obtain ⟨k, rfl⟩ : ∃ k, fuel = k + 1 := ⟨fuel - 1, by simp at hfuel; omega⟩
    simp [ring_count, firstAddr_nil]
  | cons c rest ih =>
    intro prev fuel hseg hhead hfuel
    obtain ⟨k, rfl⟩ : ∃ k, fuel = k + 1 := ⟨fuel - 1, by simp at hfuel; omega⟩
    simp only [List.map_cons, List.mem_cons, not_or] at hhead
    have hne : c.1 ≠ head := Ne.symm hhead.1
    have hrec := ih c.1 k hseg.2 hhead.2 (by simp only [List.length_cons] at hfuel; omega)
    simp only [ring_count, firstAddr_cons, hne, if_false, hseg.1, Option.bind_eq_bind,
      Option.some_bind, hrec, List.length_cons]

theorem seg_first_prev (nodes : Ptr → Option node_t) (prev stop : Ptr)
    (cells : List (Ptr × Ptr)) (hne : cells ≠ []) (h : seg nodes prev cells stop) :
    (nodes (firstAddr cells stop)).map (fun n => n.prev) = some prev := by
  cases cells with
  | nil => exact absurd rfl hne
  | cons c rest => rw [firstAddr_cons, h.1]; rfl

theorem seg_last_next (nodes : Ptr → Option node_t) (prev stop : Ptr)
    (cells : List (Ptr × Ptr)) (hne : cells ≠ []) (h : seg nodes prev cells stop) :
    (nodes (lastAddr cells prev)).map (fun n => n.next) = some stop := by
  induction cells generalizing prev with
  | nil => exact absurd rfl hne
  | cons c rest ih =>
    rw [lastAddr_cons]
    cases rest with
    | nil => rw [lastAddr_nil, h.1]; rfl
    | cons c2 r2 => exact ih c.1 (by simp) h.2

theorem wf_ring_linked (st : State W) (list : Ptr) (cells : List (Ptr × Ptr)) (l : list_t W)
    (hwf : WF st list cells) (hl : st.lists list = some l) :
    ∀ a ∈ l.head :: cells.map Prod.fst, Linked st.nodes a ∧
      ∃ nd, st.nodes a = some nd ∧ nd.next ∈ l.head :: cells.map Prod.fst := by
  obtain ⟨_, l2, h, hl2, hh, _, hnext, hprev, hseg, _, _⟩ := hwf
  rw [hl] at hl2
  cases hl2
  have hfirst : (st.nodes (firstAddr cells l.head)).map (fun n => n.prev) = some l.head := by
    rcases firstAddr_cases cells l.head with ⟨hnil, e⟩ | ⟨hne, _⟩
    · rw [e, hh, Option.map_some', hprev, hnil]; rfl
    · exact seg_first_prev _ _ _ _ hne hseg
  have hlast : (st.nodes (lastAddr cells l.head)).map (fun n => n.next) = some l.head := by
    rcases lastAddr_cases cells l.head with ⟨hnil, e⟩ | ⟨hne, _⟩
    · rw [e, hh, Option.map_some', hnext, hnil]; rfl
    · exact seg_last_next _ _ _ _ hne hseg
  intro a ha
  simp only [List.mem_cons] at ha
  rcases ha with rfl | ha
  · refine ⟨⟨?_, ?_⟩, h, hh, ?_⟩
    · rw [hh, Option.some_bind, hnext]; exact hfirst
    · rw [hh, Option.some_bind, hprev]; exact hlast
    · rw [hnext]
      rcases firstAddr_cases cells l.head with ⟨_, e⟩ | ⟨_, hm⟩
      · rw [e]; exact List.mem_cons_self _ _
      · exact List.mem_cons_of_mem _ hm
  · obtain ⟨c, hc, rfl⟩ := List.mem_map.mp ha
    obtain ⟨pre, post, rfl⟩ := List.append_of_mem hc
    have hsplit := (seg_append _ _ _ _ _).mp hseg
    have hpre : seg st.nodes l.head pre c.1 := hsplit.1
    have hcc : st.nodes c.1 = some ⟨c.2, firstAddr post l.head, lastAddr pre l.head⟩ :=
      hsplit.2.1
    have hpost : seg st.nodes c.1 post l.head := hsplit.2.2
    refine ⟨⟨?_, ?_⟩, _, hcc, ?_⟩
    · rw [hcc, Option.some_bind]
      rcases firstAddr_cases post l.head with ⟨hnil, e⟩ | ⟨hne, _⟩
      · subst hnil
        rw [firstAddr_nil, hh, Option.map_some', hprev, lastAddr_append]
        rfl
      · exact seg_first_prev _ _ _ _ hne hpost
    · rw [hcc, Option.some_bind]
      rcases lastAddr_cases pre l.head with ⟨hnil, e⟩ | ⟨hne, _⟩
      · subst hnil
        rw [lastAddr_nil, hh, Option.map_some', hnext]
        rfl
      · exact seg_last_next _ _ _ _ hne hpre
    · show firstAddr post l.head ∈ _
      rcases firstAddr_cases post l.head with ⟨_, e⟩ | ⟨_, hm⟩
      · rw [e]; exact List.mem_cons_self _ _
      · refine List.mem_cons_of_mem _ ?_
        simp only [List.map_append, List.map_cons, List.mem_append, List.mem_cons]
        exact Or.inr (Or.inr hm)

theorem walk_stays_in_ring (nodes : Ptr → Option node_t) (ring : List Ptr)
    (hnext : ∀ a ∈ ring, ∃ nd, nodes a = some nd ∧ nd.next ∈ ring) :
    ∀ (k : Nat) (s : Ptr), s ∈ ring → ∃ n, walk nodes k s = some n ∧ n ∈ ring := by
  intro k
  induction k with
  | zero => intro s hs; exact ⟨s, rfl, hs⟩
  | succ k ih =>
    intro s hs
    obtain ⟨nd, hnd, hmem⟩ := hnext s hs
    obtain ⟨n, hn, hnr⟩ := ih nd.next hmem
    exact ⟨n, by simp [walk, hnd, hn], hnr⟩

theorem ring_fresh (n : Nat) (cmp : Ptr → Ptr → Int) (p : Ptr) (hp : n + 1 < p)
    (hlt : p < SIZE_RANGE) : FreshNode (ringState n cmp) p := by
  refine ⟨?_, hlt, ?_⟩
  · simp only [NULL]; unfold Ptr at *; omega
  · have h1 : p ≠ 1 := by unfold Ptr at *; omega
    have h2 : ¬ (2 ≤ p ∧ p ≤ n + 1) := by unfold Ptr at *; omega
    simp [ringState, ringNodes, h1, h2]

theorem example_reachable : Reachable exampleState LIST := by
  have h0 : Reachable initState LIST :=
    Reachable.init emptyState log_destroy ptr_compare LIST 1 (by decide)
      ⟨by decide, by decide, rfl⟩
  have h1 : Reachable (afterAdd initState 77 2) LIST :=
    Reachable.add _ _ LIST 77 2 LIST h0 (Or.inr ⟨by decide, by decide, rfl⟩) rfl
  have h2 : Reachable (afterAdd (afterAdd initState 77 2) 78 3) LIST :=
    Reachable.add _ _ LIST 78 3 LIST h1 (Or.inr ⟨by decide, by decide, rfl⟩) rfl
  have h3 : Reachable (afterAdd (afterAdd (afterAdd initState 77 2) 78 3) 79 4) LIST :=
    Reachable.add _ _ LIST 79 4 LIST h2 (Or.inr ⟨by decide, by decide, rfl⟩) rfl
  exact Reachable.remove _ _ LIST 1 78 h3 rfl

theorem walk_back_seg (nodes : Ptr → Option node_t) :
    ∀ (cells : List (Ptr × Ptr)) (prev stop : Ptr), seg nodes prev cells stop →
      walk_back nodes cells.length (lastAddr cells prev) = some prev := by
  intro cells
  induction cells using List.reverseRecOn with
  | nil => intro prev _ _; rfl
  | append_singleton xs c ih =>
    intro prev stop h
    obtain ⟨hxs, hc, _⟩ := (seg_append _ _ _ _ _).mp h
    have hc2 : nodes c.1 = some ⟨c.2, stop, lastAddr xs prev⟩ := hc
    rw [lastAddr_append, lastAddr_cons, lastAddr_nil, List.length_append, List.length_singleton]
    simp only [walk_back, hc2, Option.bind_eq_bind, Option.some_bind]
    exact ih prev _ hxs

theorem wf_ring_closed (st : State W) (list : Ptr) (cells : List (Ptr × Ptr)) (l : list_t W)
    (h : node_t) (hwf : WF st list cells) (hl : st.lists list = some l)
    (hh : st.nodes l.head = some h) :
    (l.size = 0 → h.next = l.head ∧ h.prev = l.head) ∧
      walk st.nodes (l.size + 1) l.head = some l.head ∧
      walk_back st.nodes (l.size + 1) l.head = some l.head := by
  obtain ⟨_, l2, h2, hl2, hh2, hsize, hnext, hprev, hseg, _, _⟩ := hwf
  rw [hl] at hl2
  cases hl2
  rw [hh] at hh2
  cases hh2
  refine ⟨fun h0 => ?_, ?_, ?_⟩
  · have hnil : cells = [] := List.length_eq_zero.mp (by rw [← hsize]; exact h0)
    subst hnil
    exact ⟨hnext, hprev⟩
  · have hw := walk_seg st.nodes l.head l.head cells [] (by simpa using hseg)
    simp only [List.append_nil, firstAddr_nil] at hw
    simp only [walk, hh, Option.bind_eq_bind, Option.some_bind, hnext, hsize]
    exact hw
  · have hw := walk_back_seg st.nodes cells l.head l.head hseg
    simp only [walk_back, hh, Option.bind_eq_bind, Option.some_bind, hprev, hsize]
    exact hw

theorem list_indexof_loop_no_match (st : State W) (list data : Ptr) (l : list_t W)
    (hl : st.lists list = some l) :
    ∀ (cells : List (Ptr × Ptr)) (prev index fuel : Nat),
      seg st.nodes prev cells l.head → l.head ∉ cells.map Prod.fst →
      (∀ c ∈ cells, l.compare_to c.2 data ≠ 0) → cells.length < fuel →
      list_indexof_loop st list data fuel (firstAddr cells l.head) index = some (-1) := by
  intro cells
  induction cells with
  | nil =>
    intro prev index fuel _ _ _ hfuel
    obtain ⟨k, rfl⟩ : ∃ k, fuel = k + 1 := ⟨fuel - 1, by simp at hfuel; omega⟩
    simp [list_indexof_loop, hl, firstAddr_nil]
  | cons c rest ih =>
    intro prev index fuel hseg hhead hno hfuel
    obtain ⟨k, rfl⟩ : ∃ k, fuel = k + 1 := ⟨fuel - 1, by simp at hfuel; omega⟩
    simp only [List.map_cons, List.mem_cons, not_or] at hhead
    have hne : c.1 ≠ l.head := Ne.symm hhead.1
    have hc0 : l.compare_to c.2 data ≠ 0 := hno c (List.mem_cons_self _ _)
    have hrec := ih c.1 ((index + 1) % SIZE_RANGE) k hseg.2 hhead.2
      (fun c2 hc2 => hno c2 (List.mem_cons_of_mem _ hc2))
      (by simp only [List.length_cons] at hfuel; omega)
    simp only [list_indexof_loop, hl, Option.bind_eq_bind, Option.some_bind, firstAddr_cons, hne,
      if_false, hseg.1, hc0]
    exact hrec

theorem list_indexof_no_match (st : State W) (list data : Ptr) (l : list_t W)
    (cells : List (Ptr × Ptr)) (fuel : Nat) (hwf : WF st list cells)
    (hl : st.lists list = some l) (hno : ∀ e ∈ contents cells, l.compare_to e data ≠ 0)
    (hfuel : cells.length < fuel) : list_indexof fuel st list data = some (-1) := by
  obtain ⟨hlist, l2, h, hl2, hh, _, hnext, _, hseg, hnd, _⟩ := hwf
  rw [hl] at hl2
  cases hl2
  by_cases hd : data = NULL
  · simp [list_indexof, hd]
  have hloop := list_indexof_loop_no_match st list data l hl cells l.head 0 fuel hseg
    (List.nodup_cons.mp hnd).1
    (fun c hc => hno c.2 (List.mem_map.mpr ⟨c, hc, rfl⟩)) hfuel
  simp only [list_indexof, hlist, hd, or_self, if_false, hl, Option.bind_eq_bind,
    Option.some_bind, hh, hnext, hloop]

theorem addedCells_nil : addedCells [] = [] := rfl

theorem addedCells_cons_fail (c : Ptr × Ptr) (rest : List (Ptr × Ptr))
    (h : ¬ (c.1 ≠ NULL ∧ c.2 ≠ NULL)) : addedCells (c :: rest) = addedCells rest := by
  simp [addedCells, List.filter_cons, h]

theorem addedCells_cons_ok (c : Ptr × Ptr) (rest : List (Ptr × Ptr))
    (h : c.1 ≠ NULL ∧ c.2 ≠ NULL) :
    addedCells (c :: rest) = addedCells rest ++ [(c.2, c.1)] := by
  simp [addedCells, List.filter_cons, h]

theorem run_adds_wf (list : Ptr) :
    ∀ (calls : List (Ptr × Ptr)) (st : State W) (cells : List (Ptr × Ptr)),
      WF st list cells → AddsFresh st list calls →
      ∃ st2, run_adds st list calls = some ((addedCells calls).length, st2) ∧
        WF st2 list (addedCells calls ++ cells) := by
  intro calls
  induction calls with
  | nil => intro st cells hwf _; exact ⟨st, rfl, hwf⟩
  | cons c rest ih =>
    intro st cells hwf hfresh
    obtain ⟨hp, hnext⟩ := hfresh
    by_cases hok : c.1 ≠ NULL ∧ c.2 ≠ NULL
    · rcases hp with hp | hp
      · exact absurd hp hok.2
      obtain ⟨st1, hrun, hwf1⟩ := list_add_wf st list c.1 c.2 cells hwf hok.1 hp
      obtain ⟨st2, hrun2, hwf2⟩ := ih st1 ((c.2, c.1) :: cells) hwf1 (hnext _ hrun)
      refine ⟨st2, ?_, ?_⟩
      · simp only [run_adds, hrun, Option.bind_eq_bind, Option.some_bind, hrun2, hwf.1, if_false,
          addedCells_cons_ok c rest hok, List.length_append, List.length_singleton]
        rw [Nat.add_comm]
      · rw [addedCells_cons_ok c rest hok, List.append_assoc]
        exact hwf2
    · have hrun : list_add st list c.1 c.2 = some (NULL, st) := by
        by_cases h1 : c.1 = NULL
        · simp [list_add, h1]
        · have h2 : c.2 = NULL := by
            by_contra h2; exact hok ⟨h1, h2⟩
          simp [list_add, h2]
      obtain ⟨st2, hrun2, hwf2⟩ := ih st cells hwf (hnext _ hrun)
      refine ⟨st2, ?_, ?_⟩
      · simp only [run_adds, hrun, Option.bind_eq_bind, Option.some_bind, hrun2, if_true,
          addedCells_cons_fail c rest hok, Nat.zero_add]
      · rw [addedCells_cons_fail c rest hok]
        exact hwf2

theorem addsFresh_cons (st : State W) (list : Ptr) (c : Ptr × Ptr) (rest : List (Ptr × Ptr))
    (r : Ptr × State W) (hp : c.2 = NULL ∨ FreshNode st c.2)
    (hrun : list_add st list c.1 c.2 = some r) (hrest : AddsFresh r.2 list rest) :
    AddsFresh st list (c :: rest) := by
  refine ⟨hp, fun r2 h2 => ?_⟩
  rw [hrun] at h2
  cases h2
  exact hrest

theorem list_destroy_null_handle (st : State W) (hd : Ptr) (fuel : Nat)
    (h : hd = NULL ∨ st.handles hd = some NULL) : list_destroy fuel st hd = some st := by
  by_cases h0 : hd = NULL
  · simp [list_destroy, h0]
  · rcases h with h | h
    · exact absurd h h0
    · simp [list_destroy, h0, h]

theorem addedCells_all_ok (calls : List (Ptr × Ptr))
    (hok : ∀ c ∈ calls, c.1 ≠ NULL ∧ c.2 ≠ NULL) :
    contents (addedCells calls) = (calls.map Prod.fst).reverse := by
  induction calls with
  | nil => rfl
  | cons c rest ih =>
    rw [addedCells_cons_ok c rest (hok c (List.mem_cons_self _ _))]
    simp only [contents, List.map_append, List.map_cons, List.map_nil, List.reverse_cons] at ih ⊢
    rw [ih (fun c2 hc2 => hok c2 (List.mem_cons_of_mem _ hc2))]

theorem wf_of_afterAdd (s : State (List Ptr)) (x p : Ptr) (cells : List (Ptr × Ptr))
    (hwf : WF s LIST cells) (hx : x ≠ NULL) (hp : FreshNode s p) :
    list_add s LIST x p = some (LIST, afterAdd s x p) ∧
      WF (afterAdd s x p) LIST ((p, x) :: cells) := by
  obtain ⟨st2, hrun, hwf2⟩ := list_add_wf s LIST x p cells hwf hx hp
  have : afterAdd s x p = st2 := by simp [afterAdd, hrun]
  rw [this]
  exact ⟨hrun, hwf2⟩

theorem scenario3_wf : WF scenario3 LIST [(4, 1001), (3, 1002), (2, 1003)] := by
  have h0 : WF scenario0 LIST [] :=
    list_init_wf emptyState log_destroy int_compare LIST 1 (by decide)
      ⟨by decide, by decide, rfl⟩
  have h1 := (wf_of_afterAdd scenario0 1003 2 [] h0 (by decide) ⟨by decide, by decide, rfl⟩).2
  have h2 := (wf_of_afterAdd _ 1002 3 _ h1 (by decide) ⟨by decide, by decide, rfl⟩).2
  exact (wf_of_afterAdd _ 1001 4 _ h2 (by decide) ⟨by decide, by decide, rfl⟩).2

theorem scenario4_wf : WF scenario4 LIST [(4, 1001), (2, 1003)] := by
  obtain ⟨c, st2, _, hrun, _, hwf2⟩ :=
    list_remove_index_wf scenario3 LIST _ 1 scenario3_wf (by decide)
  have : scenario4 = st2 := by simp [scenario4, afterRemove, hrun]
  rw [this]
  exact hwf2

theorem data_after_update (nodes : Ptr → Option node_t) (a : Ptr) (n n2 : node_t)
    (hn : nodes a = some n) (hd : n2.data = n.data) (q : Ptr) :
    (Function.update nodes a (some n2) q).map (fun x => x.data)
      = (nodes q).map (fun x => x.data) := by
  by_cases hq : q = a
  · subst hq; simp [hn, hd]
  · simp [Function.update, hq]

theorem list_add_data_preserved (st st2 : State W) (list x p r : Ptr)
    (hrun : list_add st list x p = some (r, st2)) (q : Ptr) (hq : q ≠ p) :
    (st2.nodes q).map (fun n => n.data) = (st.nodes q).map (fun n => n.data) := by
  unfold list_add at hrun
  by_cases h1 : list = NULL ∨ x = NULL
  · rw [if_pos h1] at hrun; cases hrun; rfl
  rw [if_neg h1] at hrun
  by_cases h2 : p = NULL
  · simp only [h2, if_true] at hrun; cases hrun; rfl
  simp only [h2, if_false, Option.bind_eq_bind, Option.bind_eq_some] at hrun
  obtain ⟨l, _, h, _, h1n, _, f, hf, h2n, hh2, hfin⟩ := hrun
  simp only [Option.some.injEq, Prod.mk.injEq] at hfin
  obtain ⟨_, rfl⟩ := hfin
  dsimp only
  rw [data_after_update _ _ h2n { h2n with next := p } hh2 rfl q,
    data_after_update _ _ f { f with prev := p } hf rfl q, Function.update_noteq hq]

theorem list_remove_index_data_preserved (st st2 : State W) (list r : Ptr) (index : Nat)
    (hrun : list_remove_index st list index = some (r, st2)) (q : Ptr) :
    st2.nodes q = none ∨
      (st2.nodes q).map (fun n => n.data) = (st.nodes q).map (fun n => n.data) := by
  unfold list_remove_index at hrun
  by_cases h1 : list = NULL
  · rw [if_pos h1] at hrun; cases hrun; exact Or.inr rfl
  rw [if_neg h1] at hrun
  simp only [Option.bind_eq_bind, Option.bind_eq_some] at hrun
  obtain ⟨l, _, hrun⟩ := hrun
  by_cases h2 : index ≥ l.size
  · rw [if_pos h2] at hrun; cases hrun; exact Or.inr rfl
  rw [if_neg h2] at hrun
  simp only [Option.bind_eq_bind, Option.bind_eq_some] at hrun
  obtain ⟨h, _, cur, _, c, _, pn, hpn, c1, _, nn, hnn, _, _, hfin⟩ := hrun
  simp only [Option.some.injEq, Prod.mk.injEq] at hfin
  obtain ⟨_, rfl⟩ := hfin
  by_cases hq : q = cur
  · left; subst hq; exact Function.update_same _ _ _
  · right
    dsimp only
    rw [Function.update_noteq hq, data_after_update _ _ nn { nn with prev := c1.prev } hnn rfl q,
      data_after_update _ _ pn { pn with next := c.next } hpn rfl q]

theorem list_remove_index_keeps_header (st st2 : State W) (list r : Ptr) (index : Nat)
    (l : list_t W) (hl : st.lists list = some l)
    (hrun : list_remove_index st list index = some (r, st2)) :
    ∃ l2, st2.lists list = some l2 ∧ l2.head = l.head ∧ l2.compare_to = l.compare_to ∧
      l2.destroy_data = l.destroy_data := by
  unfold list_remove_index at hrun
  by_cases h1 : list = NULL
  · rw [if_pos h1] at hrun; cases hrun; exact ⟨l, hl, rfl, rfl, rfl⟩
  rw [if_neg h1] at hrun
  simp only [hl, Option.bind_eq_bind, Option.some_bind] at hrun
  by_cases h2 : index ≥ l.size
  · rw [if_pos h2] at hrun; cases hrun; exact ⟨l, hl, rfl, rfl, rfl⟩
  rw [if_neg h2] at hrun
  simp only [Option.bind_eq_bind, Option.bind_eq_some] at hrun
  obtain ⟨_, _, _, _, _, _, _, _, _, _, _, _, _, _, hfin⟩ := hrun
  simp only [Option.some.injEq, Prod.mk.injEq] at hfin
  obtain ⟨_, rfl⟩ := hfin
  exact ⟨_, Function.update_same _ _ _, rfl, rfl, rfl⟩

theorem clean_after_add (st st2 : State W) (list x p : Ptr) (cells : List (Ptr × Ptr))
    (hc : CleanRing st list cells) (hx : x ≠ NULL) (hp : FreshNode st p)
    (hrun : list_add st list x p = some (list, st2)) (hwf2 : WF st2 list ((p, x) :: cells)) :
    CleanRing st2 list ((p, x) :: cells) := by
  obtain ⟨hwf, hnn, l, h, hl, hh, hdata⟩ := hc
  refine ⟨hwf2, ?_, ?_⟩
  · intro c hcm
    rcases List.mem_cons.mp hcm with rfl | hcm
    · exact hx
    · exact hnn c hcm
  · obtain ⟨l2, hl2, _, _, hhead⟩ := list_add_keeps_callbacks st st2 list x p list l hl hwf.1 hrun
    have hne : l.head ≠ p := by
      intro e; rw [e, hp.2.2] at hh; cases hh
    have hpres := list_add_data_preserved st st2 list x p list hrun l.head hne
    obtain ⟨_, l3, h3, hl3, hh3, _⟩ := hwf2
    rw [hl2] at hl3
    cases hl3
    rw [hhead] at hh3
    rw [hh3, hh] at hpres
    refine ⟨l2, h3, hl2, by rw [hhead]; exact hh3, ?_⟩
    simp only [Option.map_some', Option.some.injEq] at hpres
    rw [hpres, hdata]

theorem clean_after_remove (st st2 : State W) (list r : Ptr) (index : Nat)
    (cells cells2 : List (Ptr × Ptr)) (hc : CleanRing st list cells)
    (hsub : ∀ c ∈ cells2, c ∈ cells)
    (hrun : list_remove_index st list index = some (r, st2)) (hwf2 : WF st2 list cells2) :
    CleanRing st2 list cells2 := by
  obtain ⟨hwf, hnn, l, h, hl, hh, hdata⟩ := hc
  refine ⟨hwf2, fun c hcm => hnn c (hsub c hcm), ?_⟩
  obtain ⟨l2, hl2, hhead, _, _⟩ := list_remove_index_keeps_header st st2 list r index l hl hrun
  obtain ⟨_, l3, h3, hl3, hh3, _⟩ := hwf2
  rw [hl2] at hl3
  cases hl3
  rw [hhead] at hh3
  refine ⟨l2, h3, hl2, by rw [hhead]; exact hh3, ?_⟩
  rcases list_remove_index_data_preserved st st2 list r index hrun l.head with hnone | hpres
  · rw [hh3] at hnone; cases hnone
  · rw [hh3, hh] at hpres
    simp only [Option.map_some', Option.some.injEq] at hpres
    rw [hpres, hdata]

theorem reachable_clean (st : State W) (list : Ptr) (hr : Reachable st list) :
    ∃ cells, CleanRing st list cells := by
  induction hr with
  | init s0 dd cmp lm hm hlm hhm =>
    refine ⟨[], list_init_wf s0 dd cmp lm hm hlm hhm, by simp, ?_⟩
    simp only [list_init, hlm, hhm.1, if_false]
    exact ⟨_, _, Function.update_same _ _ _, Function.update_same _ _ _, rfl⟩
  | add s s2 list data p r _ hp hrun ih =>
    obtain ⟨cells, hc⟩ := ih
    by_cases hd : data = NULL
    · simp [list_add, hd] at hrun
      rw [← hrun.2]; exact ⟨cells, hc⟩
    by_cases hp0 : p = NULL
    · simp [list_add, hp0] at hrun
      rw [← hrun.2]; exact ⟨cells, hc⟩
    rcases hp with hp | hp
    · exact absurd hp hp0
    obtain ⟨st2, hrun2, hwf2⟩ := list_add_wf s list data p cells hc.1 hd hp
    have hrun3 := hrun2
    rw [hrun] at hrun3
    simp only [Option.some.injEq, Prod.mk.injEq] at hrun3
    obtain ⟨rfl, rfl⟩ := hrun3
    exact ⟨_, clean_after_add s s2 r data p cells hc hd hp hrun hwf2⟩
  | remove s s2 list index r _ hrun ih =>
    obtain ⟨cells, hc⟩ := ih
    by_cases hi : index < cells.length
    · obtain ⟨c, st2, _, hrun2, _, hwf2⟩ := list_remove_index_wf s list cells index hc.1 hi
      have hrun3 := hrun2
      rw [hrun] at hrun3
      simp only [Option.some.injEq, Prod.mk.injEq] at hrun3
      obtain ⟨_, rfl⟩ := hrun3
      exact ⟨_, clean_after_remove s s2 list r index cells _ hc
        (fun c hcm => List.mem_of_mem_eraseIdx hcm) hrun hwf2⟩
    · have hwf0 := hc.1
      obtain ⟨_, l, _, hl, _, hsize, _⟩ := hwf0
      rw [list_remove_index_out_of_range s list index (Or.inr ⟨l, hl, by omega⟩)] at hrun
      simp only [Option.some.injEq, Prod.mk.injEq] at hrun
      rw [← hrun.2]; exact ⟨cells, hc⟩
  | indexof s list data fuel r _ _ ih => exact ih

theorem next_path_of_ring_count (nodes : Ptr → Option node_t) (head : Ptr) :
    ∀ (fuel : Nat) (current : Ptr) (n : Nat), ring_count nodes head fuel current = some n →
      ∃ cells, cells.length = n ∧ next_path nodes head current cells := by
  intro fuel
  induction fuel with
  | zero => intro current n h; simp [ring_count] at h
  | succ k ih =>
    intro current n h
    by_cases hc : current = head
    · simp only [ring_count, hc, if_true, Option.some.injEq] at h
      exact ⟨[], by simpa using h, hc⟩
    · simp only [ring_count, hc, if_false, Option.bind_eq_bind, Option.bind_eq_some,
        Option.some.injEq] at h
      obtain ⟨nd, hnd, m, hm, rfl⟩ := h
      obtain ⟨cells, hlen, hpath⟩ := ih nd.next m hm
      exact ⟨(current, nd.data) :: cells, by simp [hlen], rfl, hc, nd, hnd, rfl, hpath⟩

theorem ring_count_of_next_path (nodes : Ptr → Option node_t) (head : Ptr) :
    ∀ (cells : List (Ptr × Ptr)) (current : Ptr) (fuel : Nat),
      next_path nodes head current cells → cells.length < fuel →
      ring_count nodes head fuel current = some cells.length := by
  intro cells
  induction cells with
  | nil =>
    intro current fuel h hfuel
    obtain ⟨k, rfl⟩ : ∃ k, fuel = k + 1 := ⟨fuel - 1, by simp at hfuel; omega⟩
    have h0 : current = head := h
    simp [ring_count, h0]
  | cons c rest ih =>
    intro current fuel h hfuel
    obtain ⟨k, rfl⟩ : ∃ k, fuel = k + 1 := ⟨fuel - 1, by simp at hfuel; omega⟩
    obtain ⟨hcur, hne, nd, hnd, _, hrest⟩ := h
    have hrec := ih nd.next k hrest (by simp only [List.length_cons] at hfuel; omega)
    simp only [ring_count, hcur, hne, if_false, hnd, Option.bind_eq_bind, Option.some_bind, hrec,
      List.length_cons]

theorem next_path_suffix (nodes : Ptr → Option node_t) (head : Ptr) :
    ∀ (xs : List (Ptr × Ptr)) (current : Ptr) (c : Ptr × Ptr) (ys : List (Ptr × Ptr)),
      next_path nodes head current (xs ++ c :: ys) → next_path nodes head c.1 (c :: ys) := by
  intro xs
  induction xs with
  | nil =>
    intro current c ys h
    obtain ⟨_, hne, hrest⟩ := h
    exact ⟨rfl, hne, hrest⟩
  | cons x rest ih =>
    intro current c ys h
    obtain ⟨_, _, nd, _, _, hrest⟩ := h
    exact ih nd.next c ys hrest

theorem next_path_nodup (nodes : Ptr → Option node_t) (head : Ptr) :
    ∀ (cells : List (Ptr × Ptr)) (current : Ptr), next_path nodes head current cells →
      (cells.map Prod.fst).Nodup := by
  intro cells
  induction cells with
  | nil => intro _ _; simp
  | cons c rest ih =>
    intro current h
    have h0 := h
    obtain ⟨_, _, nd, _, _, hrest⟩ := h0
    simp only [List.map_cons, List.nodup_cons]
    refine ⟨fun hmem => ?_, ih nd.next hrest⟩
    obtain ⟨c2, hc2, he⟩ := List.mem_map.mp hmem
    obtain ⟨xs, ys, rfl⟩ := List.append_of_mem hc2
    have hsuf := next_path_suffix nodes head xs nd.next c2 ys hrest
    rw [he] at hsuf
    have hwhole : next_path nodes head c.1 (c :: (xs ++ c2 :: ys)) := by
      obtain ⟨_, hne, hex⟩ := h
      exact ⟨rfl, hne, hex⟩
    have e1 := ring_count_of_next_path nodes head _ _ ((c :: (xs ++ c2 :: ys)).length + 1)
      hwhole (by omega)
    have e2 := ring_count_of_next_path nodes head _ _ ((c :: (xs ++ c2 :: ys)).length + 1)
      hsuf (by simp only [List.length_cons, List.length_append]; omega)
    rw [e1] at e2
    simp only [Option.some.injEq, List.length_cons, List.length_append] at e2
    omega

theorem next_path_update_of_not_mem (nodes : Ptr → Option node_t) (head a : Ptr)
    (v : Option node_t) :
    ∀ (cells : List (Ptr × Ptr)) (current : Ptr), a ∉ cells.map Prod.fst →
      next_path nodes head current cells →
      next_path (Function.update nodes a v) head current cells := by
  intro cells
  induction cells with
  | nil => intro current _ h; exact h
  | cons c rest ih =>
    intro current ha h
    simp only [List.map_cons, List.mem_cons, not_or] at ha
    obtain ⟨hcur, hne, nd, hnd, hd, hrest⟩ := h
    refine ⟨hcur, hne, nd, ?_, hd, ih nd.next ha.2 hrest⟩
    rw [Function.update_noteq (Ne.symm ha.1)]
    exact hnd

theorem walk_next_path (nodes : Ptr → Option node_t) (head : Ptr) :
    ∀ (cells : List (Ptr × Ptr)) (current : Ptr) (j : Nat),
      next_path nodes head current cells → j < cells.length →
      ∃ c, walk nodes j current = some c ∧ c ≠ head := by
  intro cells
  induction cells with
  | nil => intro _ j _ hj; simp at hj
  | cons c rest ih =>
    intro current j h hj
    obtain ⟨hcur, hne, nd, hnd, _, hrest⟩ := h
    cases j with
    | zero => exact ⟨current, rfl, by rw [hcur]; exact hne⟩
    | succ i =>
      obtain ⟨c2, hw, hc2⟩ := ih nd.next i hrest (by simp only [List.length_cons] at hj; omega)
      exact ⟨c2, by simp only [walk, hcur, hnd, Option.bind_eq_bind, Option.some_bind, hw], hc2⟩

theorem list_indexof_loop_returns (st : State W) (list data : Ptr) (l : list_t W)
    (hl : st.lists list = some l) :
    ∀ (cells : List (Ptr × Ptr)) (current index fuel : Nat),
      next_path st.nodes l.head current cells → cells.length < fuel → index < SIZE_RANGE →
      ∃ r, list_indexof_loop st list data fuel current index = some r ∧
        (r = -1 ∨ ∃ j, j < cells.length ∧ r = size_to_int ((index + j) % SIZE_RANGE)) := by
  intro cells
  induction cells with
  | nil =>
    intro current index fuel h hfuel _
    obtain ⟨k, rfl⟩ : ∃ k, fuel = k + 1 := ⟨fuel - 1, by simp at hfuel; omega⟩
    have h0 : current = l.head := h
    exact ⟨-1, by simp [list_indexof_loop, hl, h0], Or.inl rfl⟩
  | cons c rest ih =>
    intro current index fuel h hfuel hidx
    obtain ⟨k, rfl⟩ : ∃ k, fuel = k + 1 := ⟨fuel - 1, by simp at hfuel; omega⟩
    obtain ⟨hcur, hne, nd, hnd, _, hrest⟩ := h
    by_cases hm : l.compare_to nd.data data = 0
    · refine ⟨size_to_int index, ?_, Or.inr ⟨0, by simp, ?_⟩⟩
      · simp only [list_indexof_loop, hl, Option.bind_eq_bind, Option.some_bind, hcur, hne,
          if_false, hnd, hm, if_true]
      · rw [Nat.add_zero, Nat.mod_eq_of_lt hidx]
    · obtain ⟨r, hr, hres⟩ := ih nd.next ((index + 1) % SIZE_RANGE) k hrest
        (by simp only [List.length_cons] at hfuel; omega)
        (Nat.mod_lt _ (by simp [SIZE_RANGE]))
      refine ⟨r, ?_, ?_⟩
      · simp only [list_indexof_loop, hl, Option.bind_eq_bind, Option.some_bind, hcur, hne,
          if_false, hnd, hm]
        exact hr
      · rcases hres with hres | ⟨j, hj, hres⟩
        · exact Or.inl hres
        · refine Or.inr ⟨j + 1, by simp only [List.length_cons]; omega, ?_⟩
          rw [hres, Nat.mod_add_mod, Nat.add_assoc, Nat.add_comm 1 j]

theorem list_destroy_loop_returns (hd p : Ptr) (l : list_t W) :
    ∀ (cells : List (Ptr × Ptr)) (st : State W) (current fuel : Nat),
      st.handles hd = some p → st.lists p = some l →
      next_path st.nodes l.head current cells → cells.length < fuel →
      ∃ st2, list_destroy_loop hd fuel st current = some st2 ∧
        st2.world = (contents cells).foldl (fun w e => l.destroy_data e w) st.world ∧
        st2.lists = st.lists ∧ st2.handles = st.handles ∧
        (∀ a, a ∉ cells.map Prod.fst → st2.nodes a = st.nodes a) := by
  intro cells
  induction cells with
  | nil =>
    intro st current fuel hh hl h hfuel
    obtain ⟨k, rfl⟩ : ∃ k, fuel = k + 1 := ⟨fuel - 1, by simp at hfuel; omega⟩
    have h0 : current = l.head := h
    exact ⟨st, by simp [list_destroy_loop, hh, hl, h0], rfl, rfl, rfl, fun _ _ => rfl⟩
  | cons c rest ih =>
    intro st current fuel hh hl h hfuel
    obtain ⟨k, rfl⟩ : ∃ k, fuel = k + 1 := ⟨fuel - 1, by simp at hfuel; omega⟩
    have hnd0 := next_path_nodup st.nodes l.head _ current h
    simp only [List.map_cons, List.nodup_cons] at hnd0
    obtain ⟨hcur, hne, nd, hnd, hdata, hrest⟩ := h
    obtain ⟨st2, hrun, hworld, hlists, hhandles, hkept⟩ :=
      ih { st with world := l.destroy_data nd.data st.world,
                   nodes := Function.update st.nodes c.1 none } nd.next k hh hl
        (next_path_update_of_not_mem _ _ _ _ _ _ hnd0.1 hrest)
        (by simp only [List.length_cons] at hfuel; omega)
    refine ⟨st2, ?_, ?_, hlists, hhandles, ?_⟩
    · simp only [list_destroy_loop, hh, hl, Option.bind_eq_bind, Option.some_bind, hcur, hne,
        if_false, hnd]
      exact hrun
    · rw [hworld, hdata]; rfl
    · intro a ha
      simp only [List.map_cons, List.mem_cons, not_or] at ha
      rw [hkept a ha.2]
      simp [Function.update, ha.1]

theorem next_path_head_not_mem (nodes : Ptr → Option node_t) (head : Ptr) :
    ∀ (cells : List (Ptr × Ptr)) (current : Ptr), next_path nodes head current cells →
      head ∉ cells.map Prod.fst := by
  intro cells
  induction cells with
  | nil => intro _ _; simp
  | cons c rest ih =>
    intro current h
    obtain ⟨_, hne, nd, _, _, hrest⟩ := h
    simp only [List.map_cons, List.mem_cons, not_or]
    exact ⟨Ne.symm hne, ih nd.next hrest⟩

/-! ## The claims -/

/-- C1: on a well-formed list with cells `cells` (contents `L`, size `n`) and
an index `i < n`, `list_remove_index` returns exactly the element `L[i]`,
which is the one read by walking `i` next-steps from the node after the
sentinel; afterwards the list is well formed with position `i` erased (all
other elements kept in their order) and `size` is `n - 1`. -/
theorem list_remove_index_returns_element (st : State W) (list : Ptr)
    (cells : List (Ptr × Ptr)) (i : Nat) (hwf : WF st list cells) (hi : i < cells.length) :
    ∃ e st2, (contents cells)[i]? = some e ∧
      list_remove_index st list i = some (e, st2) ∧
      element_at st list i = some e ∧
      WF st2 list (cells.eraseIdx i) ∧
      contents (cells.eraseIdx i) = (contents cells).eraseIdx i ∧
      list_size st list = some cells.length ∧
      list_size st2 list = some (cells.length - 1) := by
  obtain ⟨c, st2, hc, hrun, helem, hwf2⟩ := list_remove_index_wf st list cells i hwf hi
  refine ⟨c.2, st2, ?_, hrun, helem, hwf2, contents_eraseIdx cells i,
    list_size_of_wf st list cells hwf, ?_⟩
  · simp [contents, hc]
  · rw [list_size_of_wf st2 list _ hwf2, List.length_eraseIdx, if_pos hi]

/-- Witness for C1: removing index 1 of the three-element example list. -/
theorem list_remove_index_returns_element_witness :
    WF (ringState 3 ptr_compare) LIST (ringCells 3) ∧ 1 < (ringCells 3).length ∧
      (list_remove_index (ringState 3 ptr_compare) LIST 1).map Prod.fst = some (3 + 2 ^ 40) ∧
      ∃ e st2, (contents (ringCells 3))[1]? = some e ∧
        list_remove_index (ringState 3 ptr_compare) LIST 1 = some (e, st2) ∧
        element_at (ringState 3 ptr_compare) LIST 1 = some e ∧
        WF st2 LIST ((ringCells 3).eraseIdx 1) ∧
        contents ((ringCells 3).eraseIdx 1) = (contents (ringCells 3)).eraseIdx 1 ∧
        list_size (ringState 3 ptr_compare) LIST = some (ringCells 3).length ∧
        list_size st2 LIST = some ((ringCells 3).length - 1) :=
  ⟨ring_wf 3 ptr_compare (by decide), by decide, rfl,
    list_remove_index_returns_element (ringState 3 ptr_compare) LIST (ringCells 3) 1
      (ring_wf 3 ptr_compare (by decide)) (by decide)⟩

/-- C2: on a well-formed list with cells `cells` (contents `L`, size `n`), for
a non-null element `x` and a successful allocation `p`, `list_add` returns the
same list reference; afterwards the list is well formed with contents `x`
followed by `L`, and `size` is `n + 1`. -/
theorem list_add_pushes_front (st : State W) (list x p : Ptr) (cells : List (Ptr × Ptr))
    (hwf : WF st list cells) (hx : x ≠ NULL) (hp : FreshNode st p) :
    ∃ st2, list_add st list x p = some (list, st2) ∧
      WF st2 list ((p, x) :: cells) ∧
      contents ((p, x) :: cells) = x :: contents cells ∧
      list_size st list = some cells.length ∧
      list_size st2 list = some (cells.length + 1) := by
  obtain ⟨st2, hrun, hwf2⟩ := list_add_wf st list x p cells hwf hx hp
  exact ⟨st2, hrun, hwf2, rfl, list_size_of_wf st list cells hwf,
    list_size_of_wf st2 list _ hwf2⟩

/-- Witness for C2: adding element 77 at node address 9 to the two-element
example list. -/
theorem list_add_pushes_front_witness :
    WF (ringState 2 ptr_compare) LIST (ringCells 2) ∧ (77 : Ptr) ≠ NULL ∧
      FreshNode (ringState 2 ptr_compare) 9 ∧
      ∃ st2, list_add (ringState 2 ptr_compare) LIST 77 9 = some (LIST, st2) ∧
        WF st2 LIST ((9, 77) :: ringCells 2) ∧
        contents ((9, 77) :: ringCells 2) = 77 :: contents (ringCells 2) ∧
        list_size (ringState 2 ptr_compare) LIST = some (ringCells 2).length ∧
        list_size st2 LIST = some ((ringCells 2).length + 1) :=
  ⟨ring_wf 2 ptr_compare (by decide), by decide,
    ring_fresh 2 ptr_compare 9 (by decide) (by decide),
    list_add_pushes_front (ringState 2 ptr_compare) LIST 77 9 (ringCells 2)
      (ring_wf 2 ptr_compare (by decide)) (by decide)
      (ring_fresh 2 ptr_compare 9 (by decide) (by decide))⟩

/-- C3 (failing input): in the well-formed example list with `2 ^ 31 + 1`
elements, whose only element comparing equal to `bigKey` is the last one, at
position `2 ^ 31`, `list_indexof` returns `-2147483648` instead of that
position. -/
theorem list_indexof_wraps_at_big_position :
    WF (ringState (2 ^ 31 + 1) ptr_compare) LIST (ringCells (2 ^ 31 + 1)) ∧
      ringCells (2 ^ 31 + 1) = ringCells (2 ^ 31) ++ [(2 ^ 31 + 2, bigKey)] ∧
      (ringCells (2 ^ 31)).length = 2 ^ 31 ∧
      (∀ c ∈ ringCells (2 ^ 31), ptr_compare c.2 bigKey ≠ 0) ∧
      ptr_compare bigKey bigKey = 0 ∧
      list_indexof (2 ^ 31 + 2) (ringState (2 ^ 31 + 1) ptr_compare) LIST bigKey
        = some (-2147483648) := by
  have hwf := ring_wf (2 ^ 31 + 1) ptr_compare (by norm_num [SIZE_RANGE])
  have hsplit : ringCells (2 ^ 31 + 1) = ringCells (2 ^ 31) ++ [(2 ^ 31 + 2, bigKey)] := by
    rw [ringCells, ringCellsFrom_concat]
    rfl
  have hpre : ∀ c ∈ ringCells (2 ^ 31), ptr_compare c.2 bigKey ≠ 0 := by
    intro c hc
    simp only [ringCells, ringCellsFrom, List.mem_map, List.mem_range'_1] at hc
    obtain ⟨q, hq, rfl⟩ := hc
    have : q + 2 ^ 40 ≠ bigKey := by
      simp only [bigKey]
      unfold Ptr
      omega
    show ptr_compare (q + 2 ^ 40) bigKey ≠ 0
    unfold ptr_compare
    rw [if_neg this]
    decide
  refine ⟨hwf, hsplit, ringCellsFrom_length 2 (2 ^ 31), hpre, by simp [ptr_compare], ?_⟩
  rw [hsplit] at hwf
  have hrun := list_indexof_first_match (ringState (2 ^ 31 + 1) ptr_compare) LIST bigKey
    (2 ^ 31 + 2) bigKey _ (ringCells (2 ^ 31)) [] (2 ^ 31 + 2) hwf rfl
    (by simp [bigKey, NULL]) hpre (by simp [ptr_compare])
    (by rw [ringCells, ringCellsFrom_length]; omega)
  rw [hrun, ringCells, ringCellsFrom_length]
  rfl

/-- C4: when the list reference is null, or the header is live and
`index >= size` (so for every index on an empty list), `list_remove_index`
returns `NULL` and leaves the whole memory state unchanged. -/
theorem list_remove_index_rejects (st : State W) (list : Ptr) (index : Nat)
    (h : list = NULL ∨ ∃ l, st.lists list = some l ∧ l.size ≤ index) :
    list_remove_index st list index = some (NULL, st) :=
  list_remove_index_out_of_range st list index h

/-- Witness for C4: index 5 on the two-element example list. -/
theorem list_remove_index_rejects_witness :
    (∃ l, (ringState 2 ptr_compare).lists LIST = some l ∧ l.size ≤ 5) ∧
      list_remove_index (ringState 2 ptr_compare) LIST 5
        = some (NULL, ringState 2 ptr_compare) :=
  ⟨⟨_, rfl, by decide⟩,
    list_remove_index_rejects (ringState 2 ptr_compare) LIST 5 (Or.inr ⟨_, rfl, by decide⟩)⟩

/-- C5: for a null or well-formed list reference and a failed or fresh
allocation, `list_add` returns; it returns `NULL` exactly when the list
reference is null, the element is null or the allocation failed, and in every
such case the whole memory state is unchanged. -/
theorem list_add_failure_iff (st : State W) (list x p : Ptr)
    (hl : list = NULL ∨ ∃ cells, WF st list cells) (hp : p = NULL ∨ FreshNode st p) :
    ∃ r st2, list_add st list x p = some (r, st2) ∧
      (r = NULL ↔ (list = NULL ∨ x = NULL ∨ p = NULL)) ∧
      (r = NULL → st2 = st) := by
  by_cases h1 : list = NULL
  · exact ⟨NULL, st, by simp [list_add, h1], by simp [h1], fun _ => rfl⟩
  by_cases h2 : x = NULL
  · exact ⟨NULL, st, by simp [list_add, h2], by simp [h2], fun _ => rfl⟩
  by_cases h3 : p = NULL
  · exact ⟨NULL, st, by simp [list_add, h1, h2, h3], by simp [h3], fun _ => rfl⟩
  rcases hl with hl | ⟨cells, hwf⟩
  · exact absurd hl h1
  rcases hp with hp | hp
  · exact absurd hp h3
  obtain ⟨st2, hrun, _⟩ := list_add_wf st list x p cells hwf h2 hp
  exact ⟨list, st2, hrun, by simp [h1, h2, h3], fun e => absurd e h1⟩

/-- Witness for C5: a failed allocation on the two-element example list. -/
theorem list_add_failure_iff_witness :
    (∃ cells, WF (ringState 2 ptr_compare) LIST cells) ∧
      ∃ r st2, list_add (ringState 2 ptr_compare) LIST 77 NULL = some (r, st2) ∧
        (r = NULL ↔ (LIST = NULL ∨ (77 : Ptr) = NULL ∨ NULL = NULL)) ∧
        (r = NULL → st2 = ringState 2 ptr_compare) :=
  ⟨⟨ringCells 2, ring_wf 2 ptr_compare (by decide)⟩,
    list_add_failure_iff (ringState 2 ptr_compare) LIST 77 NULL
      (Or.inr ⟨ringCells 2, ring_wf 2 ptr_compare (by decide)⟩) (Or.inl rfl)⟩

/-- C6: on a well-formed list with cells `cells`, for a non-null element `x`
and a successful allocation `p`, `list_add` succeeds and the immediately
following `list_remove_index` at index 0 returns exactly `x` and restores the
memory state from before the add, so the list has the same size and the same
contents. -/
theorem add_remove_round_trip (st : State W) (list x p : Ptr) (cells : List (Ptr × Ptr))
    (hwf : WF st list cells) (hx : x ≠ NULL) (hp : FreshNode st p) :
    ∃ st1 st2, list_add st list x p = some (list, st1) ∧
      list_remove_index st1 list 0 = some (x, st2) ∧
      st2 = st ∧ WF st2 list cells ∧ list_size st2 list = some cells.length := by
  obtain ⟨st1, hadd, hrem⟩ := add_remove_state st list x p cells hwf hx hp
  exact ⟨st1, st, hadd, hrem, rfl, hwf, list_size_of_wf st list cells hwf⟩

/-- Witness for C6: the round trip on the freshly constructed (empty) example
list. -/
theorem add_remove_round_trip_witness :
    WF (ringState 0 ptr_compare) LIST (ringCells 0) ∧ (77 : Ptr) ≠ NULL ∧
      FreshNode (ringState 0 ptr_compare) 9 ∧
      ∃ st1 st2, list_add (ringState 0 ptr_compare) LIST 77 9 = some (LIST, st1) ∧
        list_remove_index st1 LIST 0 = some (77, st2) ∧
        st2 = ringState 0 ptr_compare ∧ WF st2 LIST (ringCells 0) ∧
        list_size st2 LIST = some (ringCells 0).length :=
  ⟨ring_wf 0 ptr_compare (by decide), by decide,
    ring_fresh 0 ptr_compare 9 (by decide) (by decide),
    add_remove_round_trip (ringState 0 ptr_compare) LIST 77 9 (ringCells 0)
      (ring_wf 0 ptr_compare (by decide)) (by decide)
      (ring_fresh 0 ptr_compare 9 (by decide) (by decide))⟩

/-- C7 (amended): on a well-formed list whose comparator reports `x` equal to
itself, a successful `list_add` of the non-null `x` followed immediately by
`list_indexof` of `x` returns 0, for every positive fuel. -/
theorem add_then_indexof_zero (st : State W) (list x p : Ptr) (cells : List (Ptr × Ptr))
    (l : list_t W) (hwf : WF st list cells) (hl : st.lists list = some l) (hx : x ≠ NULL)
    (hp : FreshNode st p) (hrefl : l.compare_to x x = 0) :
    ∃ st1, list_add st list x p = some (list, st1) ∧
      ∀ fuel, 0 < fuel → list_indexof fuel st1 list x = some 0 := by
  obtain ⟨st1, hrun, hwf1⟩ := list_add_wf st list x p cells hwf hx hp
  refine ⟨st1, hrun, fun fuel hfuel => ?_⟩
  obtain ⟨l2, hl2, hcmp, _, _⟩ := list_add_keeps_callbacks st st1 list x p list l hl hwf.1 hrun
  have := list_indexof_first_match st1 list x p x l2 [] cells fuel hwf1 hl2 hx
    (by simp) (by rw [hcmp]; exact hrefl) (by simpa using hfuel)
  rw [this]
  rfl

/-- C7 (counterexample): with a comparator that never reports equality, no
element of the two-element example list compares equal to the new element,
the add succeeds, and the immediately following `list_indexof` returns -1. -/
theorem add_then_indexof_counterexample :
    WF (ringState 2 never_equal) LIST (ringCells 2) ∧
      (∀ e ∈ contents (ringCells 2), never_equal e 77 ≠ 0) ∧
      FreshNode (ringState 2 never_equal) 9 ∧
      (list_add (ringState 2 never_equal) LIST 77 9).map Prod.fst = some LIST ∧
      (list_add (ringState 2 never_equal) LIST 77 9).bind
        (fun r => list_indexof 10 r.2 LIST 77) = some (-1) := by
  refine ⟨ring_wf 2 never_equal (by norm_num [SIZE_RANGE]), ?_, ?_, ?_, ?_⟩
  · intro e _; simp [never_equal]
  · simp [FreshNode, NULL, SIZE_RANGE, ringState, ringNodes]
  · rfl
  · rfl

/-- Witness for C7 (amended): the reference comparator on the two-element
example list. -/
theorem add_then_indexof_zero_witness :
    WF (ringState 2 ptr_compare) LIST (ringCells 2) ∧ (77 : Ptr) ≠ NULL ∧
      FreshNode (ringState 2 ptr_compare) 9 ∧ ptr_compare 77 77 = 0 ∧
      ∃ st1, list_add (ringState 2 ptr_compare) LIST 77 9 = some (LIST, st1) ∧
        ∀ fuel, 0 < fuel → list_indexof fuel st1 LIST 77 = some 0 :=
  ⟨ring_wf 2 ptr_compare (by decide), by decide,
    ring_fresh 2 ptr_compare 9 (by decide) (by decide), by decide,
    add_then_indexof_zero (ringState 2 ptr_compare) LIST 77 9 (ringCells 2) _
      (ring_wf 2 ptr_compare (by decide)) rfl (by decide)
      (ring_fresh 2 ptr_compare 9 (by decide) (by decide)) (by decide)⟩

/-- C8: on a well-formed list with elements `e0, ..., e(n-1)` reached through
a live handle, `list_destroy` returns for every fuel above `n`; the destructor
has then been applied to exactly `e0, ..., e(n-1)`, once each and in that
order, and to nothing else (the world is the left fold of the destructor over
the contents); every node and the header are released and the handle holds
`NULL`. -/
theorem list_destroy_calls_destructor_in_order (st : State W) (hd p : Ptr) (l : list_t W)
    (cells : List (Ptr × Ptr)) (fuel : Nat)
    (hhd : hd ≠ NULL) (hh : st.handles hd = some p) (hwf : WF st p cells)
    (hl : st.lists p = some l) (hfuel : cells.length < fuel) :
    ∃ st2, list_destroy fuel st hd = some st2 ∧
      st2.world = (contents cells).foldl (fun w e => l.destroy_data e w) st.world ∧
      st2.handles hd = some NULL ∧
      st2.lists p = none ∧
      (∀ a ∈ l.head :: cells.map Prod.fst, st2.nodes a = none) :=
  list_destroy_result st hd p l cells fuel hhd hh hwf hl hfuel

/-- Witness for C8: destroying the three-element example list, whose
destructor records its arguments, leaves exactly the three elements in the
record, front to back. -/
theorem list_destroy_calls_destructor_in_order_witness :
    (8 : Ptr) ≠ NULL ∧ (ringState 3 ptr_compare).handles 8 = some LIST ∧
      WF (ringState 3 ptr_compare) LIST (ringCells 3) ∧ (ringCells 3).length < 4 ∧
      (contents (ringCells 3)).foldl (fun w e => log_destroy e w) []
        = [2 + 2 ^ 40, 3 + 2 ^ 40, 4 + 2 ^ 40] ∧
      ∃ st2, list_destroy 4 (ringState 3 ptr_compare) 8 = some st2 ∧
        st2.world = (contents (ringCells 3)).foldl (fun w e => log_destroy e w) [] ∧
        st2.handles 8 = some NULL ∧
        st2.lists LIST = none ∧
        (∀ a ∈ (1 : Ptr) :: (ringCells 3).map Prod.fst, st2.nodes a = none) :=
  ⟨by decide, rfl, ring_wf 3 ptr_compare (by decide), by decide, rfl,
    list_destroy_calls_destructor_in_order (ringState 3 ptr_compare) 8 LIST _ (ringCells 3) 4
      (by decide) rfl (ring_wf 3 ptr_compare (by decide)) rfl (by decide)⟩

/-- C9: in every state reachable from `list_init` through `list_add`,
`list_remove_index` and `list_indexof` calls, the `size` field equals the
number of nodes visited by following `next` from `head->next` until the
sentinel is reached again (for every fuel above `size`). -/
theorem size_counts_ring_nodes (st : State W) (list : Ptr) (hr : Reachable st list) :
    ∃ l h, st.lists list = some l ∧ st.nodes l.head = some h ∧
      ∀ fuel, l.size < fuel → ring_count st.nodes l.head fuel h.next = some l.size := by
  obtain ⟨cells, _, l, h, hl, hh, hsize, hnext, _, hseg, hnd, _⟩ := reachable_wf st list hr
  refine ⟨l, h, hl, hh, fun fuel hfuel => ?_⟩
  rw [hnext, hsize]
  exact ring_count_seg st.nodes l.head cells l.head fuel hseg (List.nodup_cons.mp hnd).1
    (by omega)

/-- Witness for C9: the state after init, three adds and one removal. -/
theorem size_counts_ring_nodes_witness :
    Reachable exampleState LIST ∧ list_size exampleState LIST = some 2 ∧
      ∃ l h, exampleState.lists LIST = some l ∧ exampleState.nodes l.head = some h ∧
        ∀ fuel, l.size < fuel →
          ring_count exampleState.nodes l.head fuel h.next = some l.size :=
  ⟨example_reachable, rfl, size_counts_ring_nodes exampleState LIST example_reachable⟩

/-- C10: in every state reachable from `list_init` through `list_add` and
`list_remove_index` calls (and `list_indexof` calls), every node `n` of the
ring, the sentinel included, satisfies `n.next.prev == n` and
`n.prev.next == n`: this holds for every node reached by any number of
`next` steps from the sentinel, and for the sentinel and every cell of the
list. -/
theorem ring_links_consistent (st : State W) (list : Ptr) (hr : Reachable st list) :
    ∃ l cells, st.lists list = some l ∧ WF st list cells ∧
      (∀ a ∈ l.head :: cells.map Prod.fst, Linked st.nodes a) ∧
      ∀ k, ∃ n, walk st.nodes k l.head = some n ∧ Linked st.nodes n := by
  obtain ⟨cells, hwf⟩ := reachable_wf st list hr
  have hwf0 := hwf
  obtain ⟨_, l, _, hl, _⟩ := hwf0
  have hlinked := wf_ring_linked st list cells l hwf hl
  refine ⟨l, cells, hl, hwf, fun a ha => (hlinked a ha).1, fun k => ?_⟩
  obtain ⟨n, hn, hmem⟩ := walk_stays_in_ring st.nodes (l.head :: cells.map Prod.fst)
    (fun a ha => (hlinked a ha).2) k l.head (List.mem_cons_self _ _)
  exact ⟨n, hn, (hlinked n hmem).1⟩

/-- Witness for C10: the state after init, three adds and one removal. -/
theorem ring_links_consistent_witness :
    Reachable exampleState LIST ∧
      ∃ l cells, exampleState.lists LIST = some l ∧ WF exampleState LIST cells ∧
        (∀ a ∈ l.head :: cells.map Prod.fst, Linked exampleState.nodes a) ∧
        ∀ k, ∃ n, walk exampleState.nodes k l.head = some n ∧
          Linked exampleState.nodes n :=
  ⟨example_reachable, ring_links_consistent exampleState LIST example_reachable⟩

/-- C11 (amended): in every reachable state, when the list is empty the
sentinel's `next` and `prev` point to the sentinel itself, and in every case
following `next` links from the sentinel exactly `size + 1` times returns to
the sentinel, and likewise following `prev` links exactly `size + 1` times. -/
theorem ring_closed_after_size_plus_one (st : State W) (list : Ptr)
    (hr : Reachable st list) :
    ∃ l h, st.lists list = some l ∧ st.nodes l.head = some h ∧
      (l.size = 0 → h.next = l.head ∧ h.prev = l.head) ∧
      walk st.nodes (l.size + 1) l.head = some l.head ∧
      walk_back st.nodes (l.size + 1) l.head = some l.head := by
  obtain ⟨cells, hwf⟩ := reachable_wf st list hr
  have hwf0 := hwf
  obtain ⟨_, l, h, hl, hh, _⟩ := hwf0
  exact ⟨l, h, hl, hh, wf_ring_closed st list cells l h hwf hl hh⟩

/-- Witness for C11 (amended): the state after init, three adds and one
removal. -/
theorem ring_closed_after_size_plus_one_witness :
    Reachable exampleState LIST ∧
      ∃ l h, exampleState.lists LIST = some l ∧ exampleState.nodes l.head = some h ∧
        (l.size = 0 → h.next = l.head ∧ h.prev = l.head) ∧
        walk exampleState.nodes (l.size + 1) l.head = some l.head ∧
        walk_back exampleState.nodes (l.size + 1) l.head = some l.head :=
  ⟨example_reachable, ring_closed_after_size_plus_one exampleState LIST example_reachable⟩

/-- C11 (counterexample): the reachable example state holds a list of size 2
with sentinel at address 1; following `next` from the sentinel exactly 2 times
ends at the node at address 2, and following `prev` exactly 2 times ends at the
node at address 4, neither of which is the sentinel. -/
theorem ring_closed_after_size_counterexample :
    Reachable exampleState LIST ∧
      (exampleState.lists LIST).map (fun l => (l.size, l.head)) = some (2, 1) ∧
      walk exampleState.nodes 2 1 = some 2 ∧
      walk_back exampleState.nodes 2 1 = some 4 :=
  ⟨example_reachable, rfl, rfl, rfl⟩

/-- C12: `list_indexof` returns -1 whenever the list reference is null, the
data reference is null (whatever the list holds), or the list is well formed
and no stored element `e` has `compare_to(e, data) == 0` (so for every data on
an empty list); in the last case for every fuel above the size. -/
theorem list_indexof_not_found (st : State W) (list data : Ptr) (fuel : Nat)
    (h : list = NULL ∨ data = NULL ∨
      ∃ cells l, WF st list cells ∧ st.lists list = some l ∧
        (∀ e ∈ contents cells, l.compare_to e data ≠ 0) ∧ cells.length < fuel) :
    list_indexof fuel st list data = some (-1) := by
  rcases h with h | h | ⟨cells, l, hwf, hl, hno, hfuel⟩
  · simp [list_indexof, h]
  · simp [list_indexof, h]
  · exact list_indexof_no_match st list data l cells fuel hwf hl hno hfuel

/-- Witness for C12: searching the three-element example list for a reference
it does not hold. -/
theorem list_indexof_not_found_witness :
    (∃ cells l, WF (ringState 3 ptr_compare) LIST cells ∧
        (ringState 3 ptr_compare).lists LIST = some l ∧
        (∀ e ∈ contents cells, l.compare_to e 77 ≠ 0) ∧ cells.length < 4) ∧
      list_indexof 4 (ringState 3 ptr_compare) LIST 77 = some (-1) :=
  ⟨⟨ringCells 3, _, ring_wf 3 ptr_compare (by decide), rfl, by decide, by decide⟩,
    list_indexof_not_found (ringState 3 ptr_compare) LIST 77 4
      (Or.inr (Or.inr ⟨ringCells 3, _, ring_wf 3 ptr_compare (by decide), rfl,
        by decide, by decide⟩))⟩

/-- C13: for every sequence of `list_add` calls applied to a well-formed list
of size `n0` (each call with any element, null included, and an allocation
that fails or is fresh), the sequence returns and the size afterwards is `n0`
plus the number of calls that returned non-`NULL`; a freshly constructed list
is the case `n0 = 0`. -/
theorem size_after_adds (st : State W) (list : Ptr) (cells calls : List (Ptr × Ptr))
    (hwf : WF st list cells) (hfresh : AddsFresh st list calls) :
    ∃ k st2, run_adds st list calls = some (k, st2) ∧
      list_size st list = some cells.length ∧
      list_size st2 list = some (cells.length + k) := by
  obtain ⟨st2, hrun, hwf2⟩ := run_adds_wf list calls st cells hwf hfresh
  refine ⟨_, st2, hrun, list_size_of_wf st list cells hwf, ?_⟩
  rw [list_size_of_wf st2 list _ hwf2, List.length_append, Nat.add_comm]

/-- Witness for C13: on the freshly constructed list, four calls of which the
second has a null element and the third a failed allocation; two succeed and
the size is 2. -/
theorem size_after_adds_witness :
    WF initState LIST [] ∧
      AddsFresh initState LIST [(77, 2), (NULL, 3), (78, NULL), (79, 3)] ∧
      (run_adds initState LIST [(77, 2), (NULL, 3), (78, NULL), (79, 3)]).map Prod.fst
        = some 2 ∧
      ∃ k st2, run_adds initState LIST [(77, 2), (NULL, 3), (78, NULL), (79, 3)]
          = some (k, st2) ∧
        list_size initState LIST = some ([] : List (Ptr × Ptr)).length ∧
        list_size st2 LIST = some (([] : List (Ptr × Ptr)).length + k) :=
  have hwf : WF initState LIST [] :=
    list_init_wf emptyState log_destroy ptr_compare LIST 1 (by decide)
      ⟨by decide, by decide, rfl⟩
  have hfresh : AddsFresh initState LIST [(77, 2), (NULL, 3), (78, NULL), (79, 3)] :=
    addsFresh_cons _ _ _ _ _ (Or.inr ⟨by decide, by decide, rfl⟩) rfl
      (addsFresh_cons _ _ _ _ _ (Or.inr ⟨by decide, by decide, rfl⟩) rfl
        (addsFresh_cons _ _ _ _ _ (Or.inl rfl) rfl
          (addsFresh_cons _ _ _ _ _ (Or.inr ⟨by decide, by decide, rfl⟩) rfl trivial)))
  ⟨hwf, hfresh, rfl, size_after_adds initState LIST [] _ hwf hfresh⟩

/-- C14: after `list_destroy` of a well-formed list the caller's handle holds
`NULL`; from then on a further `list_destroy` through that handle returns
with the whole state unchanged (so no destructor runs, for every fuel), as
does `list_destroy` of a null handle address, and
with the null handle value `list_add` returns `NULL`, `list_remove_index`
returns `NULL` and `list_indexof` returns -1, each leaving the state
unchanged. -/
theorem destroyed_list_rejects_operations (st : State W) (hd p : Ptr)
    (cells : List (Ptr × Ptr)) (fuel : Nat)
    (hhd : hd ≠ NULL) (hh : st.handles hd = some p) (hwf : WF st p cells)
    (hfuel : cells.length < fuel) :
    ∃ st2, list_destroy fuel st hd = some st2 ∧
      st2.handles hd = some NULL ∧
      (∀ fuel2, list_destroy fuel2 st2 hd = some st2 ∧ list_destroy fuel2 st2 NULL = some st2) ∧
      (∀ x new_mem, list_add st2 NULL x new_mem = some (NULL, st2)) ∧
      (∀ index, list_remove_index st2 NULL index = some (NULL, st2)) ∧
      (∀ fuel2 data, list_indexof fuel2 st2 NULL data = some (-1)) := by
  have hwf0 := hwf
  obtain ⟨_, l, _, hl, _⟩ := hwf0
  obtain ⟨st2, hrun, _, hnull, _, _⟩ := list_destroy_result st hd p l cells fuel hhd hh hwf hl hfuel
  refine ⟨st2, hrun, hnull, fun fuel2 => ⟨list_destroy_null_handle st2 hd fuel2 (Or.inr hnull),
    list_destroy_null_handle st2 NULL fuel2 (Or.inl rfl)⟩,
    fun x new_mem => by simp [list_add], fun index => by simp [list_remove_index],
    fun fuel2 data => by simp [list_indexof]⟩

/-- Witness for C14: destroying the three-element example list through its
handle at address 8. -/
theorem destroyed_list_rejects_operations_witness :
    (8 : Ptr) ≠ NULL ∧ (ringState 3 ptr_compare).handles 8 = some LIST ∧
      WF (ringState 3 ptr_compare) LIST (ringCells 3) ∧ (ringCells 3).length < 4 ∧
      ∃ st2, list_destroy 4 (ringState 3 ptr_compare) 8 = some st2 ∧
        st2.handles 8 = some NULL ∧
        (∀ fuel2, list_destroy fuel2 st2 8 = some st2 ∧ list_destroy fuel2 st2 NULL = some st2) ∧
        (∀ x new_mem, list_add st2 NULL x new_mem = some (NULL, st2)) ∧
        (∀ index, list_remove_index st2 NULL index = some (NULL, st2)) ∧
        (∀ fuel2 data, list_indexof fuel2 st2 NULL data = some (-1)) :=
  ⟨by decide, rfl, ring_wf 3 ptr_compare (by decide), by decide,
    destroyed_list_rejects_operations (ringState 3 ptr_compare) 8 LIST (ringCells 3) 4
      (by decide) rfl (ring_wf 3 ptr_compare (by decide)) (by decide)⟩

/-- C15: `list_init` returns `NULL` exactly when the list allocation or the
sentinel allocation fails; when both succeed it returns the list allocation,
whose header stores exactly the two callbacks given, size 0 and the sentinel
address, the sentinel has null data and `next` and `prev` pointing to itself,
`list_indexof` returns -1 for every data (every positive fuel) and
`list_remove_index` returns `NULL` for every index, leaving the state
unchanged. -/
theorem list_init_gives_empty_list (s0 : State W) (destroy_data : Ptr → W → W)
    (compare_to : Ptr → Ptr → Int) (list_mem head_mem : Ptr) :
    ((list_init s0 destroy_data compare_to list_mem head_mem).1 = NULL ↔
        (list_mem = NULL ∨ head_mem = NULL)) ∧
      (list_mem ≠ NULL → head_mem ≠ NULL →
        (list_init s0 destroy_data compare_to list_mem head_mem).1 = list_mem ∧
        (list_init s0 destroy_data compare_to list_mem head_mem).2.lists list_mem
          = some { destroy_data := destroy_data, compare_to := compare_to, size := 0,
                   head := head_mem } ∧
        (list_init s0 destroy_data compare_to list_mem head_mem).2.nodes head_mem
          = some { data := NULL, next := head_mem, prev := head_mem } ∧
        (∀ fuel data, 0 < fuel →
          list_indexof fuel (list_init s0 destroy_data compare_to list_mem head_mem).2
            list_mem data = some (-1)) ∧
        (∀ index,
          list_remove_index (list_init s0 destroy_data compare_to list_mem head_mem).2
            list_mem index
            = some (NULL, (list_init s0 destroy_data compare_to list_mem head_mem).2))) := by
  refine ⟨?_, fun hl hh => ?_⟩
  · by_cases hl : list_mem = NULL
    · simp [list_init, hl]
    · by_cases hh : head_mem = NULL
      · simp [list_init, hl, hh]
      · simp [list_init, hl, hh]
  · simp only [list_init, hl, hh, if_false]
    refine ⟨trivial, Function.update_same _ _ _, Function.update_same _ _ _, ?_, ?_⟩
    · intro fuel data hfuel
      obtain ⟨k, rfl⟩ : ∃ k, fuel = k + 1 := ⟨fuel - 1, by omega⟩
      by_cases hd : data = NULL
      · simp [list_indexof, hd]
      · simp [list_indexof, list_indexof_loop, hl, hd]
    · intro index
      simp [list_remove_index, hl]

/-- Witness for C15: `list_init` in the empty state with allocations at `LIST`
and address 1. -/
theorem list_init_gives_empty_list_witness :
    LIST ≠ NULL ∧ (1 : Ptr) ≠ NULL ∧
      (list_init emptyState log_destroy ptr_compare LIST 1).1 = LIST ∧
      (∀ fuel data, 0 < fuel →
        list_indexof fuel (list_init emptyState log_destroy ptr_compare LIST 1).2 LIST data
          = some (-1)) ∧
      (∀ index,
        list_remove_index (list_init emptyState log_destroy ptr_compare LIST 1).2 LIST index
          = some (NULL, (list_init emptyState log_destroy ptr_compare LIST 1).2)) :=
  have h := (list_init_gives_empty_list emptyState log_destroy ptr_compare LIST 1).2
    (by decide) (by decide)
  ⟨by decide, by decide, h.1, h.2.2.2.1, h.2.2.2.2⟩

/-- C16: the scenario with references to the integers 3, 2, 1 and a numeric
comparator.  Adding 3, then 2, then 1 to the freshly constructed list gives
front-to-back contents 1, 2, 3 and size 3; `list_indexof` of (another
reference to) 2 returns 1; `list_remove_index` at 1 returns the element 2 and
leaves contents 1, 3 with size 2; `list_indexof` of 2 then returns -1.  In
general, successful adds of `x1, ..., xn` in that order to an empty
well-formed list yield contents `xn, ..., x1`. -/
theorem add_three_scenario :
    (run_adds scenario0 LIST [(1003, 2), (1002, 3), (1001, 4)] = some (3, scenario3) ∧
      WF scenario3 LIST [(4, 1001), (3, 1002), (2, 1003)] ∧
      (contents [(4, 1001), (3, 1002), (2, 1003)]).map int_at = [1, 2, 3] ∧
      list_size scenario3 LIST = some 3 ∧
      (∀ fuel, 3 < fuel → list_indexof fuel scenario3 LIST 2002 = some 1) ∧
      list_remove_index scenario3 LIST 1 = some (1002, scenario4) ∧ int_at 1002 = 2 ∧
      WF scenario4 LIST [(4, 1001), (2, 1003)] ∧
      (contents [(4, 1001), (2, 1003)]).map int_at = [1, 3] ∧
      list_size scenario4 LIST = some 2 ∧
      (∀ fuel, 2 < fuel → list_indexof fuel scenario4 LIST 2002 = some (-1))) ∧
    (∀ (V : Type) (st : State V) (list : Ptr) (calls : List (Ptr × Ptr)),
      WF st list [] → AddsFresh st list calls → (∀ c ∈ calls, c.1 ≠ NULL ∧ c.2 ≠ NULL) →
      ∃ st2 cells2, run_adds st list calls = some (calls.length, st2) ∧
        WF st2 list cells2 ∧ contents cells2 = (calls.map Prod.fst).reverse) := by
  refine ⟨⟨rfl, scenario3_wf, by decide, list_size_of_wf _ _ _ scenario3_wf, ?_, rfl, by decide,
    scenario4_wf, by decide, list_size_of_wf _ _ _ scenario4_wf, ?_⟩, ?_⟩
  · intro fuel hfuel
    exact list_indexof_first_match_small scenario3 LIST 2002 3 1002 _ [(4, 1001)] [(2, 1003)]
      fuel scenario3_wf rfl (by decide) (by decide) (by decide)
      (by simp only [List.length_singleton]; omega) (by decide)
  · intro fuel hfuel
    exact list_indexof_no_match scenario4 LIST 2002 _ _ fuel scenario4_wf rfl (by decide)
      (by simp only [List.length_cons, List.length_nil]; omega)
  · intro V st list calls hwf hfresh hok
    obtain ⟨st2, hrun, hwf2⟩ := run_adds_wf list calls st [] hwf hfresh
    have hc := addedCells_all_ok calls hok
    have hlen : (addedCells calls).length = calls.length := by
      have := congrArg List.length hc
      simpa [contents] using this
    rw [hlen] at hrun
    exact ⟨st2, _, hrun, hwf2, by rw [List.append_nil]; exact hc⟩

/-- Witness for C16: the general part applied to the three adds of the
scenario. -/
theorem add_three_scenario_witness :
    WF scenario0 LIST [] ∧ AddsFresh scenario0 LIST [(1003, 2), (1002, 3), (1001, 4)] ∧
      ∃ st2 cells2, run_adds scenario0 LIST [(1003, 2), (1002, 3), (1001, 4)]
          = some (3, st2) ∧
        WF st2 LIST cells2 ∧ contents cells2 = [1001, 1002, 1003] :=
  have hwf : WF scenario0 LIST [] :=
    list_init_wf emptyState log_destroy int_compare LIST 1 (by decide)
      ⟨by decide, by decide, rfl⟩
  have hfresh : AddsFresh scenario0 LIST [(1003, 2), (1002, 3), (1001, 4)] :=
    addsFresh_cons _ _ _ _ _ (Or.inr ⟨by decide, by decide, rfl⟩) rfl
      (addsFresh_cons _ _ _ _ _ (Or.inr ⟨by decide, by decide, rfl⟩) rfl
        (addsFresh_cons _ _ _ _ _ (Or.inr ⟨by decide, by decide, rfl⟩) rfl trivial))
  ⟨hwf, hfresh, add_three_scenario.2 (List Ptr) scenario0 LIST _ hwf hfresh (by decide)⟩

/-- C17 (failing input): in the well-formed example list with `2 ^ 32`
elements the last element, at position `2 ^ 32 - 1`, compares equal to
`bigKey32` and no earlier one does, yet `list_indexof` returns -1. -/
theorem list_indexof_minus_one_although_found :
    WF (ringState (2 ^ 32) ptr_compare) LIST (ringCells (2 ^ 32)) ∧
      ringCells (2 ^ 32) = ringCells (2 ^ 32 - 1) ++ [(2 ^ 32 + 1, bigKey32)] ∧
      (ringCells (2 ^ 32 - 1)).length = 2 ^ 32 - 1 ∧
      (∀ c ∈ ringCells (2 ^ 32 - 1), ptr_compare c.2 bigKey32 ≠ 0) ∧
      ptr_compare bigKey32 bigKey32 = 0 ∧ bigKey32 ≠ NULL ∧
      list_indexof (2 ^ 32 + 1) (ringState (2 ^ 32) ptr_compare) LIST bigKey32
        = some (-1) := by
  have hwf := ring_wf (2 ^ 32) ptr_compare (by norm_num [SIZE_RANGE])
  have hsplit : ringCells (2 ^ 32) = ringCells (2 ^ 32 - 1) ++ [(2 ^ 32 + 1, bigKey32)] := by
    have e : ringCells (2 ^ 32) = ringCellsFrom 2 (2 ^ 32 - 1 + 1) :=
      congrArg (ringCellsFrom 2) (by norm_num)
    rw [e, ringCellsFrom_concat]
    rfl
  have hpre : ∀ c ∈ ringCells (2 ^ 32 - 1), ptr_compare c.2 bigKey32 ≠ 0 := by
    intro c hc
    simp only [ringCells, ringCellsFrom, List.mem_map, List.mem_range'_1] at hc
    obtain ⟨q, hq, rfl⟩ := hc
    have : q + 2 ^ 40 ≠ bigKey32 := by
      simp only [bigKey32]
      unfold Ptr
      omega
    show ptr_compare (q + 2 ^ 40) bigKey32 ≠ 0
    unfold ptr_compare
    rw [if_neg this]
    decide
  refine ⟨hwf, hsplit, ringCellsFrom_length 2 (2 ^ 32 - 1), hpre, by simp [ptr_compare],
    by simp [bigKey32, NULL], ?_⟩
  rw [hsplit] at hwf
  have hrun := list_indexof_first_match (ringState (2 ^ 32) ptr_compare) LIST bigKey32
    (2 ^ 32 + 1) bigKey32 _ (ringCells (2 ^ 32 - 1)) [] (2 ^ 32 + 1) hwf rfl
    (by simp [bigKey32, NULL]) hpre (by simp [ptr_compare])
    (by rw [ringCells, ringCellsFrom_length]; omega)
  rw [hrun, ringCells, ringCellsFrom_length]
  rfl

/-- C18: in every reachable state the sentinel's data is `NULL`; for every
index below `size`, `list_remove_index` returns a non-null element and leaves
a well-formed, reachable list with the same sentinel, still live and with
null data; and for every index the call returns, with a `NULL` result exactly
when the index is out of range. -/
theorem remove_returns_non_null (st : State W) (list : Ptr) (hr : Reachable st list) :
    ∃ l h, st.lists list = some l ∧ st.nodes l.head = some h ∧ h.data = NULL ∧
      (∀ index, index < l.size →
        ∃ e st2 l2 h2, list_remove_index st list index = some (e, st2) ∧ e ≠ NULL ∧
          st2.lists list = some l2 ∧ l2.head = l.head ∧
          st2.nodes l.head = some h2 ∧ h2.data = NULL ∧
          Reachable st2 list ∧ ∃ cells2, WF st2 list cells2) ∧
      (∀ index, ∃ r st2, list_remove_index st list index = some (r, st2) ∧
        (r = NULL ↔ l.size ≤ index)) := by
  obtain ⟨cells, hc⟩ := reachable_clean st list hr
  have hc0 := hc
  obtain ⟨hwf, hnn, l, h, hl, hh, hdata⟩ := hc0
  have hsize : l.size = cells.length := by
    have := list_size_of_wf st list cells hwf
    simpa [list_size, hl] using this
  have hin : ∀ index, index < l.size →
      ∃ e st2 l2 h2, list_remove_index st list index = some (e, st2) ∧ e ≠ NULL ∧
        st2.lists list = some l2 ∧ l2.head = l.head ∧
        st2.nodes l.head = some h2 ∧ h2.data = NULL ∧
        Reachable st2 list ∧ ∃ cells2, WF st2 list cells2 := by
    intro index hi
    rw [hsize] at hi
    obtain ⟨c, st2, hget, hrun, _, hwf2⟩ := list_remove_index_wf st list cells index hwf hi
    have hmem : c ∈ cells := List.getElem?_mem hget
    obtain ⟨_, _, l3, h3, hl3, hh3, hd3⟩ := clean_after_remove st st2 list c.2 index cells _ hc
      (fun c hcm => List.mem_of_mem_eraseIdx hcm) hrun hwf2
    obtain ⟨l2, hl2, hhead, _, _⟩ :=
      list_remove_index_keeps_header st st2 list c.2 index l hl hrun
    have e : l3 = l2 := Option.some.inj (hl3.symm.trans hl2)
    rw [e, hhead] at hh3
    exact ⟨c.2, st2, l2, h3, hrun, hnn c hmem, hl2, hhead, hh3, hd3,
      Reachable.remove st st2 list index c.2 hr hrun, _, hwf2⟩
  refine ⟨l, h, hl, hh, hdata, hin, fun index => ?_⟩
  by_cases hi : index < l.size
  · obtain ⟨e, st2, _, _, hrun, he, _⟩ := hin index hi
    exact ⟨e, st2, hrun, by constructor <;> intro h1 <;> [exact absurd h1 he; omega]⟩
  · exact ⟨NULL, st, list_remove_index_out_of_range st list index
      (Or.inr ⟨l, hl, by omega⟩), by simp; omega⟩

/-- Witness for C18: the state after init, three adds and one removal. -/
theorem remove_returns_non_null_witness :
    Reachable exampleState LIST ∧
      (list_remove_index exampleState LIST 0).map Prod.fst = some 79 ∧
      ∃ l h, exampleState.lists LIST = some l ∧ exampleState.nodes l.head = some h ∧
        h.data = NULL ∧
        (∀ index, index < l.size →
          ∃ e st2 l2 h2, list_remove_index exampleState LIST index = some (e, st2) ∧
            e ≠ NULL ∧ st2.lists LIST = some l2 ∧ l2.head = l.head ∧
            st2.nodes l.head = some h2 ∧ h2.data = NULL ∧
            Reachable st2 LIST ∧ ∃ cells2, WF st2 LIST cells2) ∧
        (∀ index, ∃ r st2, list_remove_index exampleState LIST index = some (r, st2) ∧
          (r = NULL ↔ l.size ≤ index)) :=
  ⟨example_reachable, rfl, remove_returns_non_null exampleState LIST example_reachable⟩

/-- C19: under the ring invariant (following `next` from `head->next` reaches
the sentinel for the first time after exactly `size` steps), with fuel
`size + 1` or more `list_indexof` returns, with -1 or with a position below
`size`, and `list_destroy` returns after exactly `size` destructor calls, so
both loops stop after visiting at most `size` nodes; and for `index < size`
every node the walk of `list_remove_index` stands on, from `head->next` up to
the node it stops at, is a node other than the sentinel. -/
theorem traversals_terminate (st : State W) (list : Ptr) (l : list_t W) (h : node_t)
    (fuel0 : Nat) (hl : st.lists list = some l) (hh : st.nodes l.head = some h)
    (hring : ring_count st.nodes l.head fuel0 h.next = some l.size) :
    (∀ fuel data, l.size < fuel →
      ∃ r, list_indexof fuel st list data = some r ∧
        (r = -1 ∨ ∃ j, j < l.size ∧ r = size_to_int (j % SIZE_RANGE))) ∧
    (∀ fuel hd, l.size < fuel → hd ≠ NULL → list ≠ NULL → st.handles hd = some list →
      ∃ (st2 : State W) (elems : List Ptr), list_destroy fuel st hd = some st2 ∧ elems.length = l.size ∧
        st2.world = elems.foldl (fun w e => l.destroy_data e w) st.world ∧
        st2.handles hd = some NULL) ∧
    (∀ index j, index < l.size → j ≤ index →
      ∃ c, walk st.nodes j h.next = some c ∧ c ≠ l.head) := by
  obtain ⟨cells, hlen, hpath⟩ := next_path_of_ring_count st.nodes l.head fuel0 h.next l.size hring
  refine ⟨fun fuel data hfuel => ?_, fun fuel hd hfuel hhd hlist hhandle => ?_,
    fun index j hi hj => ?_⟩
  · by_cases h0 : list = NULL ∨ data = NULL
    · exact ⟨-1, by simp [list_indexof, h0], Or.inl rfl⟩
    · obtain ⟨r, hr, hres⟩ := list_indexof_loop_returns st list data l hl cells h.next 0 fuel
        hpath (by omega) (by simp [SIZE_RANGE])
      refine ⟨r, ?_, ?_⟩
      · simp only [list_indexof, h0, if_false, hl, Option.bind_eq_bind, Option.some_bind, hh]
        exact hr
      · rcases hres with hres | ⟨j, hj, hres⟩
        · exact Or.inl hres
        · exact Or.inr ⟨j, by omega, by rw [hres, Nat.zero_add]⟩
  · obtain ⟨st1, hrun, hworld, hlists, hhandles, hkept⟩ :=
      list_destroy_loop_returns hd list l cells st h.next fuel hhandle hl hpath (by omega)
    have hh1 : st1.handles hd = some list := by rw [hhandles]; exact hhandle
    have hl1 : st1.lists list = some l := by rw [hlists]; exact hl
    have hhead1 : st1.nodes l.head = some h := by
      rw [hkept _ (next_path_head_not_mem _ _ _ _ hpath)]; exact hh
    refine ⟨{ nodes := Function.update st1.nodes l.head none,
              lists := Function.update st1.lists list none,
              handles := Function.update st1.handles hd (some NULL),
              world := st1.world }, contents cells, ?_, ?_, hworld, ?_⟩
    · simp only [list_destroy, hhd, if_false, hhandle, Option.bind_eq_bind, Option.some_bind, hlist,
        hl, hh, hrun, hh1, hl1, hhead1]
    · simp [contents, hlen]
    · simp
  · exact walk_next_path st.nodes l.head cells h.next j hpath (by omega)

/-- Witness for C19: the three-element example list, whose ring is counted
with fuel 4. -/
theorem traversals_terminate_witness :
    ring_count (ringState 3 ptr_compare).nodes 1 4 2 = some 3 ∧
      (∀ fuel data, 3 < fuel →
        ∃ r, list_indexof fuel (ringState 3 ptr_compare) LIST data = some r ∧
          (r = -1 ∨ ∃ j, j < 3 ∧ r = size_to_int (j % SIZE_RANGE))) ∧
      (∀ fuel hd, 3 < fuel → hd ≠ NULL → LIST ≠ NULL →
        (ringState 3 ptr_compare).handles hd = some LIST →
        ∃ (st2 : State (List Ptr)) (elems : List Ptr),
          list_destroy fuel (ringState 3 ptr_compare) hd = some st2 ∧
          elems.length = 3 ∧
          st2.world = elems.foldl (fun w e => log_destroy e w) [] ∧
          st2.handles hd = some NULL) ∧
      (∀ index j, index < 3 → j ≤ index →
        ∃ c, walk (ringState 3 ptr_compare).nodes j 2 = some c ∧ c ≠ 1) :=
  ⟨rfl, traversals_terminate (ringState 3 ptr_compare) LIST
    { destroy_data := log_destroy, compare_to := ptr_compare, size := 3, head := 1 }
    { data := NULL, next := 2, prev := 4 } 4 rfl rfl rfl⟩

end CircularList
